import Mathlib

/-!
Verification development for the nipo logging plugin.

The JavaScript sources are shallowly embedded:

* `safeJsonObject` models `exports.safeJsonObject` of `lib/utils.js`
  (`src/unnamed/part_002`), over an explicit heap of objects/arrays.
* `lookupLevel`, `logResponseError`, `onResponseHandler`, `safeHandler`,
  `onLevelChange` model the corresponding functions of `src/lib/index.js`.
* `errorName`, `errorCause`, `addCause`, `errSerializer` model
  `src/lib/serialize.js`.

JavaScript objects are modelled by references (`JsValue.ref id`) into a heap
(`List Node`); object identity is identity of ids, and mutation-free
copy-on-write is modelled by appending fresh nodes to an allocation list,
never touching the input heap.
-/

/-- A JavaScript value as far as `safeJsonObject` can observe it.
`ref id` points into a heap (`List Node`); `funcV` is an opaque function
value (functions pass through `safeJsonObject` unchanged). Equality of
`JsValue`s models the JS `===` comparison. -/
inductive JsValue where
  | undef
  | jsNull
  | boolV (b : Bool)
  | numV (n : Int)
  | strV (s : String)
  | bigintV (i : Int)
  | funcV (fid : Nat)
  | ref (id : Nat)
deriving DecidableEq, Repr

/-- A heap node: a JS array or a plain object. The optional `toJSON` field
holds the (constant) value that the object's `toJSON` method returns when
present; the source calls it as `obj.toJSON(parentKey)` and our model does
not depend on the key argument. -/
inductive Node where
  | arrN (elems : List JsValue) (toJSON : Option JsValue)
  | objN (props : List (String × JsValue)) (toJSON : Option JsValue)
deriving DecidableEq, Repr

/-- The `toJSON` slot of a node. -/
def nodeToJSON : Node → Option JsValue
  | .arrN _ t => t
  | .objN _ t => t

/-- The children of a node in iteration order, keyed the way
`safeJsonObject` passes the `parentKey` argument: array elements get their
decimal index, object properties their key. -/
def nodeChildren : Node → List (String × JsValue)
  | .arrN elems _ => elems.enum.map (fun p => (toString p.1, p.2))
  | .objN props _ => props

/-- Rebuild a node from the (possibly updated) list of child values.
An array copy is made with `.slice()`, which drops any non-index `toJSON`
property; an object copy is made with `Object.assign`, which keeps it. -/
def nodeRebuild (n : Node) (vs : List JsValue) : Node :=
  match n with
  | .arrN _ _ => .arrN vs none
  | .objN props t => .objN (props.zipWith (fun p v => (p.1, v)) vs) t

/-- Result of a `safeJsonObject` run: a value together with the list of
freshly allocated copy nodes (appended after the input heap), a thrown
`TypeError` (the source throws in `Object.keys` when a `toJSON` method
returns `null`), or exhaustion of the recursion fuel. -/
inductive SJRes where
  | out (v : JsValue) (alloc : List Node)
  | thrown
  | fuelOut
deriving DecidableEq, Repr

/-- Result of sanitizing a list of children. -/
inductive SJCRes where
  | out (vs : List JsValue) (changed : Bool) (alloc : List Node)
  | thrown
  | fuelOut
deriving DecidableEq, Repr

/-- Iterate `safeJsonObject` over the children of a container, mirroring the
`for` loops of the source: each child is sanitized, and `changed` records
whether any child's sanitized value differs (`!==`) from the original. -/
def sjoChildren (f : JsValue → String → List Node → SJRes) :
    List (String × JsValue) → List Node → SJCRes
  | [], alloc => .out [] false alloc
  | (k, v) :: rest, alloc =>
    match f v k alloc with
    | .out jv alloc1 =>
      match sjoChildren f rest alloc1 with
      | .out vs changed alloc2 => .out (jv :: vs) (changed || decide (v ≠ jv)) alloc2
      | .thrown => .thrown
      | .fuelOut => .fuelOut
    | .thrown => .thrown
    | .fuelOut => .fuelOut

/-- Fuel-indexed model of `exports.safeJsonObject (obj, parentKey, stack)`
from `lib/utils.js`. `heap` is the (read-only) object heap, `stack` the list
of object ids on the current recursion path, and `alloc` the copy nodes
allocated so far (their ids start at `heap.length`). The source recursion
always terminates (see `safeJsonObject_terminates`); the fuel only makes the
recursion structural. -/
def safeJsonObjectF (fuel : Nat) (heap : List Node) (v : JsValue)
    (parentKey : String) (stack : List Nat) (alloc : List Node) : SJRes :=
  match fuel with
  | 0 => .fuelOut
  | fuel + 1 =>
    -- if (obj === undefined || obj === null) return obj
    if v = .undef ∨ v = .jsNull then .out v alloc
    else
      -- const origObj = obj; if (typeof obj.toJSON === 'function') obj = obj.toJSON(parentKey)
      let postV : JsValue :=
        match v with
        | .ref id =>
          match heap.get? id with
          | some nd => (nodeToJSON nd).getD v
          | none => v
        | _ => v
      -- const type = typeof obj
      match postV with
      | .jsNull =>
        -- typeof null === 'object': after the circular check, Object.keys(null) throws
        match v with
        | .ref id0 =>
          if id0 ∈ stack then .out (.strV "[Circular]") alloc else .thrown
        | _ => .thrown
      | .ref id1 =>
        match v with
        | .ref id0 =>
          if id0 ∈ stack then .out (.strV "[Circular]") alloc
          else
            match heap.get? id1 with
            | none => .out postV alloc
            | some nd =>
              match sjoChildren
                  (fun c k al => safeJsonObjectF fuel heap c k (stack ++ [id0]) al)
                  (nodeChildren nd) alloc with
              | .out vs changed alloc1 =>
                if changed then
                  .out (.ref (heap.length + alloc1.length)) (alloc1 ++ [nodeRebuild nd vs])
                else
                  .out postV alloc1
              | .thrown => .thrown
              | .fuelOut => .fuelOut
        | _ =>
          -- unreachable: only `ref` values carry a `toJSON` method in this model
          .out postV alloc
      | .bigintV i => .out (.strV (toString i ++ "n")) alloc
      | other => .out other alloc

/-- `safeJsonObject` with the fuel fixed at a sufficient bound (one more
than the number of heap objects; the recursion path can never revisit an
object). -/
def safeJsonObject (heap : List Node) (v : JsValue) : SJRes :=
  safeJsonObjectF (heap.length + 1) heap v "" [] []

/-- Is a JS value falsy (`!value` is true)? -/
def jsFalsy : JsValue → Bool
  | .undef => true
  | .jsNull => true
  | .boolV b => !b
  | .numV n => n = 0
  | .strV s => s = ""
  | .bigintV i => i = 0
  | .funcV _ => false
  | .ref _ => false

/-- `Pino().levels.values`: the standard pino level table used by
`internals.pinoLevels` in `src/lib/index.js`. -/
def pinoValues : List (String × Nat) :=
  [("trace", 10), ("debug", 20), ("info", 30), ("warn", 40), ("error", 50), ("fatal", 60)]

/-- `internals.pinoLevels.labels`: the inverse table, value to level name. -/
def pinoLabels (v : Nat) : Option String :=
  (pinoValues.find? (fun p => p.2 = v)).map Prod.fst

/-- Model of `internals.lookupLevel (tags, defaultLevel, map)` from
`src/lib/index.js`. The `Map` is an association list; a missing tag yields
`undefined`, and `undefined > level` is false, so it is skipped. The JS
function returns a level-name string, or `undefined` when the maximal value
has no label (impossible for maps built by `prepareLevelMap`); the `Option`
models that. -/
def lookupLevel (tags : List String) (defaultLevel : String)
    (map : List (String × Nat)) : Option String :=
  let level : Int := tags.foldl
    (fun level tag =>
      match map.lookup tag with
      | some tagLevel => if (tagLevel : Int) > level then (tagLevel : Int) else level
      | none => level)
    (-1)
  if level = -1 then some defaultLevel else pinoLabels level.toNat

/-- Which of the two loggers a record is written to (`responseLogger` goes
to stdout, `eventLogger` to stderr). -/
inductive LoggerId where
  | responseL
  | eventL
deriving DecidableEq, Repr

/-- A log write, projected onto the parts the claims talk about: target
logger, level name, message key, and (for event records) the tags, the
request id and whether an `err` field is attached. The remaining record
fields (`req`/`route`/`res` contents) are not modelled. -/
structure LogAction where
  logger : LoggerId
  level : String
  msg : String
  tags : List String := []
  request : Option String := none
  errAttached : Bool := false
deriving DecidableEq, Repr

/-- The response object as far as `onResponseHandler` and
`logResponseError` inspect it: the status code and whether `_error` is
set. -/
structure ResponseInfo where
  statusCode : Nat
  hasError : Bool
deriving DecidableEq, Repr

/-- Model of `internals.logResponseError (logger, response, id)` from
`src/lib/index.js`: emits a trace-level `request-internal` record on the
event logger when the response carries an `_error`, the status code is not
500, and trace level is enabled. -/
def logResponseError (traceEnabled : Bool) (response : ResponseInfo)
    (id : String) : List LogAction :=
  if response.hasError ∧ response.statusCode ≠ 500 ∧ traceEnabled then
    [{ logger := .eventL, level := "trace", msg := "request-internal",
       tags := ["request", "response", "error"], request := some id,
       errAttached := true }]
  else []

/-- Model of `internals.onResponseHandler (logResponse, request)` from
`src/lib/index.js`, projected onto the emitted log writes. The user gate
`logResponse(request)` is modelled by the value it returns (`Option`
because the option may be unset); the `req`/`route`/`res` record contents
and the user property maps are not modelled. -/
def onResponseHandler (traceEnabled : Bool) (logResponse : Option JsValue)
    (response : Option ResponseInfo) (id : String) : List LogAction :=
  -- if (response && logResponse) { const result = logResponse(request); … }
  let gate : Option (List LogAction) × Option String :=
    match response, logResponse with
    | some resp, some result =>
      if jsFalsy result then
        -- No response logging, but still check for event logging
        (some (logResponseError traceEnabled resp id), none)
      else
        (none, match result with | .strV s => some s | _ => none)
    | _, _ => (none, none)
  match gate.1 with
  | some early => early
  | none =>
    match response with
    | some resp =>
      (if resp.hasError then logResponseError traceEnabled resp id else []) ++
      [{ logger := .responseL,
         level := (gate.2).getD
           (if resp.statusCode ≥ 400 then
              (if resp.statusCode ≥ 500 then "error" else "warn")
            else "info"),
         msg := "request-response" }]
    | none =>
      [{ logger := .responseL, level := "debug", msg := "request-aborted" }]

/-- The status-code based default level, as the spec states it:
info below 400, warn for 400–499, error for 500 and above. -/
def claimStatusLevel (statusCode : Nat) : String :=
  if statusCode < 400 then "info"
  else if statusCode < 500 then "warn"
  else "error"

/-- The response-translation behaviour as claim C1 states it: a falsy gate
result suppresses the response line but still runs the associated-error
check; a string result forces that level; otherwise the status-based level
applies; with no response object a debug `request-aborted` record is
written. -/
def claimResponseActions (traceEnabled : Bool) (logResponse : Option JsValue)
    (response : Option ResponseInfo) (id : String) : List LogAction :=
  match response with
  | none =>
    [{ logger := .responseL, level := "debug", msg := "request-aborted" }]
  | some resp =>
    let respLine : String → LogAction := fun lvl =>
      { logger := .responseL, level := lvl, msg := "request-response" }
    match logResponse with
    | some g =>
      if jsFalsy g then logResponseError traceEnabled resp id
      else
        logResponseError traceEnabled resp id ++
          [respLine (match g with
            | .strV s => s
            | _ => claimStatusLevel resp.statusCode)]
    | none =>
      logResponseError traceEnabled resp id ++
        [respLine (claimStatusLevel resp.statusCode)]

/-- A thrown JS value, as far as `safeHandler` inspects it: enough to
decide falsiness and to read `constructor.name`, `message` and `stack`. -/
inductive JsThrow where
  | undef
  | jsNull
  | boolV (b : Bool)
  | numV (n : Int)
  | strV (s : String)
  | objV (ctorName : String)
  | errObj (ctorName : String) (message : String) (stack : String)
deriving DecidableEq, Repr

/-- Falsiness of a thrown value. -/
def jsThrowFalsy : JsThrow → Bool
  | .undef => true
  | .jsNull => true
  | .boolV b => !b
  | .numV n => n = 0
  | .strV s => s = ""
  | .objV _ => false
  | .errObj _ _ _ => false

/-- `err.constructor.name`. Accessing `constructor` on `undefined`/`null`
would itself throw; `safeHandler` never does so thanks to the falsy guard,
hence `none` for those. -/
def throwCtor : JsThrow → Option String
  | .undef => none
  | .jsNull => none
  | .boolV _ => some "Boolean"
  | .numV _ => some "Number"
  | .strV _ => some "String"
  | .objV c => some c
  | .errObj c _ _ => some c

/-- `err.message` (undefined except on error objects). -/
def throwMessage : JsThrow → Option String
  | .errObj _ m _ => some m
  | _ => none

/-- `err.stack` (undefined except on error objects). -/
def throwStack : JsThrow → Option String
  | .errObj _ _ st => some st
  | _ => none

/-- The stack of a freshly constructed `Error`. Real stack traces are
environment dependent; the model keeps the standard first line. -/
def newErrorStack (message : String) : String := "Error: " ++ message

/-- The `fatal` meta-record written by `safeHandler`'s catch block. -/
structure FatalRecord where
  server : String
  type : Option String
  message : Option String
  stack : Option String
  msg : String
deriving DecidableEq, Repr

/-- Model of the `safeHandler` wrapper in `internals.register`
(`src/lib/index.js`): the bound translator either returns normally or
throws a value; a throw is caught, a falsy thrown value is replaced by
`new Error('Unknown throw during: ' + handler)`, and a single fatal
`nipo-error` record is written to the event logger. The wrapper itself
never throws (its result type is pure). -/
def safeHandler {α β : Type} (handler : String) (serverId : String)
    (boundFn : α → Except JsThrow β) (args : α) : Option β × List FatalRecord :=
  match boundFn args with
  | .ok r => (some r, [])
  | .error e =>
    let err := if jsThrowFalsy e then
        JsThrow.errObj "Error" ("Unknown throw during: " ++ handler)
          (newErrorStack ("Unknown throw during: " ++ handler))
      else e
    (none,
      [{ server := serverId, type := throwCtor err, message := throwMessage err,
         stack := throwStack err, msg := "nipo-error" }])

/-- The subscription state of the four conditionally attached handlers of
`internals.onLevelChange`: the debug-tier group (`requestInternal`,
`logInternal`) and the info-tier group (`requestApp`, `logApp`). `true`
means the handler is currently attached via `server.events.on`. -/
structure SubState where
  requestInternal : Bool := false
  logInternal : Bool := false
  requestApp : Bool := false
  logApp : Bool := false
deriving DecidableEq, Repr

/-- A subscribe / unsubscribe side effect performed by `onLevelChange`. -/
inductive SubAction where
  | subscribe (handler : String)
  | unsubscribe (handler : String)
deriving DecidableEq, Repr

/-- Model of the `levelChanged (ref)` closure in `internals.onLevelChange`
(`src/lib/index.js`): `undefined` (`none`) when the activity boolean did
not flip, otherwise the new activity. -/
def levelChanged (levels : List (String × Nat)) (val : Nat)
    (prevVal : Option Nat) (ref : String) : Option Bool :=
  -- this.levels.values[ref]; 'debug' and 'info' are always present
  let refVal := (levels.lookup ref).getD 0
  let isActive := decide (refVal ≥ val)
  let isPrevActive := match prevVal with
    | none => false
    | some p => decide (refVal ≥ p)
  if isActive = isPrevActive then none else some isActive

/-- Model of `internals.onLevelChange (server, lvl, val, prevLvl, prevVal)`:
applies the two `update` calls, returning the new subscription state and
the subscribe/unsubscribe actions performed. -/
def onLevelChange (val : Nat) (prevVal : Option Nat) (s : SubState) :
    SubState × List SubAction :=
  let upd : Option Bool → List String → List SubAction := fun active handlers =>
    match active with
    | some true => handlers.map SubAction.subscribe
    | some false => handlers.map SubAction.unsubscribe
    | none => []
  let setG : Option Bool → Bool → Bool := fun active old =>
    match active with
    | some b => b
    | none => old
  let dbg := levelChanged pinoValues val prevVal "debug"
  let inf := levelChanged pinoValues val prevVal "info"
  (⟨setG dbg s.requestInternal, setG dbg s.logInternal,
    setG inf s.requestApp, setG inf s.logApp⟩,
   upd dbg ["requestInternal", "logInternal"] ++ upd inf ["requestApp", "logApp"])

/-- Run the mandatory initial `onLevelChange` call (previous value
undefined) followed by a sequence of threshold changes, each passing the
prior threshold, starting from the unsubscribed state. Returns the final
subscription state. -/
def runLevelChanges (v0 : Nat) (vs : List Nat) : SubState :=
  let init := (onLevelChange v0 none {}).1
  (vs.foldl (fun acc v => ((onLevelChange v (some acc.2) acc.1).1, v)) (init, v0)).1

/-- A JS value as far as `src/lib/serialize.js` inspects error payloads:
strings, numbers, or a reference into a heap of error-like objects. -/
inductive EVal where
  | strE (s : String)
  | numE (n : Int)
  | refE (id : Nat)
deriving DecidableEq, Repr

/-- An error-like heap object for the serializer: the flags and properties
`internals.errorName` / `internals.errorCause` / `internals.addCause` /
`internals.errSerializer` read. `isError` is `instanceof Error`,
`isBoomCtor` is `constructor === internals.boomCtor`, `ctorName` is
`constructor.name`, `outputStatusCode` is `output?.statusCode`. -/
structure ErrObj where
  isError : Bool
  isBoom : Bool
  isBoomCtor : Bool
  name : String
  ctorName : String
  message : Option String
  stack : Option String
  cause : Option EVal
  data : Option EVal
  code : Option EVal
  outputStatusCode : Option Nat
deriving DecidableEq, Repr

/-- Model of `internals.errorName (error)` from `src/lib/serialize.js`. -/
def errorName (heap : List ErrObj) (error : ErrObj) : String :=
  if error.isBoom then
    let base : Option String :=
      if error.isBoomCtor then
        -- if (error.cause instanceof Error && error.cause.name !== Error.prototype.name)
        match error.cause with
        | some (.refE cid) =>
          match heap.get? cid with
          | some c =>
            if c.isError ∧ c.name ≠ "Error" then some c.name
            else if error.name ≠ error.ctorName then some error.name else none
          | none =>
            if error.name ≠ error.ctorName then some error.name else none
        | _ =>
          if error.name ≠ error.ctorName then some error.name else none
      else
        some error.name
    match base with
    | some b => if b = "" then "Boom" else "Boom(" ++ b ++ ")"
    | none => "Boom"
  else
    error.name

/-- Model of `internals.errorCause (error)` from `src/lib/serialize.js`:
the explicit `cause` property, or — only when it is `undefined`, the error
is a Boom and `data` is an `Error` — the `data` payload. -/
def errorCause (heap : List ErrObj) (error : ErrObj) : Option EVal :=
  match error.cause with
  | some c => some c
  | none =>
    match error.data with
    | some (.refE did) =>
      if error.isBoom ∧ ((heap.get? did).map (·.isError)).getD false then
        error.data
      else none
    | _ => none

/-- The structured record built by `internals.errSerializer`. The `code`
and `data` fields pass through `Utils.safeJsonObject` in the source; the
claims under study do not depend on that sanitization, so the values are
kept as-is. -/
structure SerRecord where
  type : String
  message : String
  code : Option EVal
  data : Option EVal
  stack : Option String
deriving DecidableEq, Repr

/-- `error.message ?? error` followed by string concatenation: the
`message` property when present, otherwise the string coercion of the
value itself (the default `'[object Object]'` for message-less objects). -/
def evalMessage (heap : List ErrObj) : EVal → String
  | .strE s => s
  | .numE n => toString n
  | .refE id =>
    match heap.get? id with
    | some o => (o.message).getD "[object Object]"
    | none => "[object Object]"

/-- `'\ncaused by: ' + (error.stack ?? '<unknown>')` for a chain member. -/
def causeStackSeg (heap : List ErrObj) (id : Nat) : String :=
  "\ncaused by: " ++ (((heap.get? id).bind (·.stack)).getD "<unknown>")

/-- Cardinality of heap ids not yet visited; the decreasing measure of the
`addCause` walk. -/
def seenMeasure (heapLen : Nat) (seen : List Nat) : Nat :=
  ((Finset.range heapLen).filter (fun i => i ∉ seen)).card

/-- Fuel-indexed model of `internals.addCause (serialized, error, withStack,
seen)` from `src/lib/serialize.js`, additionally returning the number of
invocations of `addCause` performed (the length of the cause-chain walk).
`none` means fuel exhaustion, which never happens at the bound used by
`addCause` (`addCauseF_enough`). -/
def addCauseF (fuel : Nat) (heap : List ErrObj) (serialized : SerRecord)
    (error : Option EVal) (withStack : Bool) (seen : List Nat) :
    Option (SerRecord × Nat) :=
  match fuel with
  | 0 => none
  | fuel + 1 =>
    match error with
    | none => some (serialized, 1)
    | some c =>
      -- Ensure we don't go circular: only Error objects are ever added to
      -- `seen`, so a primitive cause can never hit this branch.
      if (match c with | .refE id => decide (id ∈ seen) | _ => false) then
        let ser1 := if withStack then
            { serialized with
              stack := serialized.stack.map
                (fun st => st ++ "\ncauses have become circular...") }
          else serialized
        some ({ ser1 with message := ser1.message ++ ": ..." }, 1)
      else
        let ser1 := { serialized with
          message := serialized.message ++ ": " ++ evalMessage heap c }
        match c with
        | .refE id =>
          match heap.get? id with
          | some o =>
            if o.isError then
              let ser2 := if withStack then
                  { ser1 with
                    stack := ser1.stack.map (fun st => st ++ causeStackSeg heap id) }
                else ser1
              (addCauseF fuel heap ser2 (errorCause heap o) withStack
                  (seen ++ [id])).map (fun r => (r.1, r.2 + 1))
            else some (ser1, 1)
          | none => some (ser1, 1)
        | _ => some (ser1, 1)

/-- `internals.addCause` with the fuel fixed at a sufficient bound: the walk
can visit each unvisited heap object at most once before either running off
the chain or detecting a cycle. -/
def addCause (heap : List ErrObj) (serialized : SerRecord) (error : Option EVal)
    (withStack : Bool) (seen : List Nat) : SerRecord × Nat :=
  (addCauseF (seenMeasure heap.length seen + 1) heap serialized error withStack
    seen).getD (serialized, 0)

/-- Result of `internals.errSerializer`: non-errors pass through. -/
inductive SerOut where
  | passthru (v : EVal)
  | record (r : SerRecord)
deriving DecidableEq, Repr

/-- Model of `internals.errSerializer (error, withStack = true)` from
`src/lib/serialize.js`, paired with the `addCause` walk length (0 for
pass-through). -/
def errSerializer (heap : List ErrObj) (v : EVal) (withStack : Bool := true) :
    SerOut × Nat :=
  match v with
  | .refE id =>
    match heap.get? id with
    | some error =>
      if error.isError then
        let message := (error.message).getD "undefined"
        let cause := errorCause heap error
        let type := errorName heap error
        let data0 := error.data
        let code0 := error.code
        let data1 := if error.isBoom then
            (if data0 = cause then none else data0)
          else data0
        let code1 := if error.isBoom then
            (match code0 with
             | none => error.outputStatusCode.map (fun sc => EVal.numE sc)
             | some cv => some cv)
          else code0
        let res : SerRecord := {
          type := type
          message := message
          code := code1
          data := data1
          stack := if withStack then error.stack else none }
        let withStack1 := withStack && (match error.stack with
          | some _ => true
          | none => false)
        let r := addCause heap res cause withStack1 [id]
        (.record r.1, r.2)
      else (.passthru v, 0)
    | none => (.passthru v, 0)
  | _ => (.passthru v, 0)

/-- `if base = '' then 'Boom' else 'Boom(' + base + ')'` — the final ternary
of `internals.errorName`. -/
def boomLabel (base : String) : String :=
  if base = "" then "Boom" else "Boom(" ++ base ++ ")"

/-- The name of the explicit `cause` property when it is a distinguishable
error (`instanceof Error` with a non-default name). -/
def explicitCauseName (heap : List ErrObj) (error : ErrObj) : Option String :=
  match error.cause with
  | some (.refE cid) =>
    match heap.get? cid with
    | some c => if c.isError ∧ c.name ≠ "Error" then some c.name else none
    | none => none
  | _ => none

/-- The type label as claim C7 states it: for a Boom error, the resolved
inner cause — the explicit `cause` reference or, as a fallback, an error
`data` payload (the `errorCause` rule) — yields `Boom(<innerName>)` when
distinguishable; otherwise a custom name distinct from the class does;
otherwise the label is plain `Boom`. Generic errors keep their own name. -/
def claimErrorName (heap : List ErrObj) (error : ErrObj) : String :=
  if error.isBoom then
    let inner : Option String :=
      match errorCause heap error with
      | some (.refE cid) =>
        match heap.get? cid with
        | some c => if c.isError ∧ c.name ≠ "Error" then some c.name else none
        | none => none
      | _ => none
    match inner with
    | some nm => "Boom(" ++ nm ++ ")"
    | none =>
      if error.name ≠ error.ctorName then "Boom(" ++ error.name ++ ")"
      else "Boom"
  else error.name

/-- Claim C7 as amended to the code's behaviour: only the explicit `cause`
property (never the `data` fallback) influences the label, and a boomified
error (constructor other than the Boom class) is always labelled with its
own name. -/
def amendedErrorName (heap : List ErrObj) (error : ErrObj) : String :=
  if ¬ error.isBoom then error.name
  else if ¬ error.isBoomCtor then boomLabel error.name
  else
    match explicitCauseName heap error with
    | some nm => boomLabel nm
    | none =>
      if error.name ≠ error.ctorName then boomLabel error.name else "Boom"

/-- Counterexample fixture for C7: a proper Boom-class error with no
explicit `cause` whose `data` payload is a distinguishable `TypeError`. -/
def c7Inner : ErrObj :=
  { isError := true, isBoom := false, isBoomCtor := false,
    name := "TypeError", ctorName := "TypeError",
    message := some "bad", stack := some "TypeError: bad", cause := none,
    data := none, code := none, outputStatusCode := none }

def c7Heap : List ErrObj := [c7Inner]

def c7Boom : ErrObj :=
  { isError := true, isBoom := true, isBoomCtor := true,
    name := "Boom", ctorName := "Boom",
    message := some "oops", stack := some "Error: oops",
    cause := none, data := some (.refE 0), code := none,
    outputStatusCode := some 500 }

/-- Links of a cause chain, starting from a resolved cause value: the chain
ids are error objects linked by `errorCause`, the last one having no
further cause. -/
def ChainFrom (heap : List ErrObj) : Option EVal → List Nat → Prop
  | cv, [] => cv = none
  | cv, j :: rest =>
    ∃ oj, cv = some (.refE j) ∧ heap.get? j = some oj ∧ oj.isError = true ∧
      ChainFrom heap (errorCause heap oj) rest

/-- Like `ChainFrom`, but the last chain member's cause links back to the
error `c` instead of ending. -/
def ChainFromCyc (heap : List ErrObj) : Option EVal → List Nat → Nat → Prop
  | cv, [], c => cv = some (.refE c)
  | cv, j :: rest, c =>
    ∃ oj, cv = some (.refE j) ∧ heap.get? j = some oj ∧ oj.isError = true ∧
      ChainFromCyc heap (errorCause heap oj) rest c

/-- The message accumulated by the cause walk: starting from `base`, each
chain member appends `': ' + its message`. -/
def msgAfter (heap : List ErrObj) (base : String) : List Nat → String
  | [] => base
  | j :: rest => msgAfter heap (base ++ ": " ++ evalMessage heap (.refE j)) rest

/-- The stack accumulated by the cause walk when stack tracing is on. -/
def stackAfter (heap : List ErrObj) (base : String) : List Nat → String
  | [] => base
  | j :: rest => stackAfter heap (base ++ causeStackSeg heap j) rest

/-- A list of segments joined by `': '`, as the claim phrases the shape of
a serialized cause-chain message. -/
def joinSegs : List String → String
  | [] => ""
  | [a] => a
  | a :: rest => a ++ ": " ++ joinSegs rest

/-- The post-`toJSON` value of the `safeJsonObject` entry: the value the
function works on after the optional conversion step. -/
def postOf (heap : List Node) (v : JsValue) : JsValue :=
  match v with
  | .ref id =>
    match heap.get? id with
    | some nd => (nodeToJSON nd).getD v
    | none => v
  | _ => v

/-- The list of child values of a node. -/
def nodeChildVals (n : Node) : List JsValue := (nodeChildren n).map Prod.snd

/-- A scalar that `safeJsonObject` passes through unchanged: neither a heap
reference nor a bigint. -/
def primClean : JsValue → Prop
  | .undef => True
  | .jsNull => True
  | .boolV _ => True
  | .numV _ => True
  | .strV _ => True
  | .funcV _ => True
  | .bigintV _ => False
  | .ref _ => False

/-- Every heap reference in the value is within `bound`. -/
def valRefBound (bound : Nat) : JsValue → Prop
  | .ref id => id < bound
  | _ => True

/-- Every child of a node only references ids within `bound`. -/
def NodeClosed (bound : Nat) (nd : Node) : Prop :=
  ∀ c ∈ nodeChildVals nd, valRefBound bound c

/-- Heap well-formedness: every node's children reference existing ids (in
JavaScript any reachable object reference is valid). -/
def HeapClosed (heap : List Node) : Prop :=
  ∀ nd ∈ heap, NodeClosed heap.length nd

/-- No object of the heap exposes a `toJSON` method. -/
def HeapNoToJSON (heap : List Node) : Prop :=
  ∀ nd ∈ heap, nodeToJSON nd = none

/-- Invariant of the allocation list threaded through a `safeJsonObject`
run over a `toJSON`-free heap: copies are `toJSON`-free and closed. -/
def allocOK (heapLen : Nat) (alloc : List Node) : Prop :=
  ∀ nd ∈ alloc, nodeToJSON nd = none ∧ NodeClosed (heapLen + alloc.length) nd

/-- Height-bounded sanitization fixpoints: values on which a
`safeJsonObject` run makes no change — scalars, or `toJSON`-free objects
all of whose children are themselves fixpoints (which in particular rules
out reachable cycles and reachable bigints). -/
def cleanN (heap : List Node) : Nat → JsValue → Prop
  | 0, v => primClean v
  | n + 1, v => primClean v ∨
      ∃ id nd, v = .ref id ∧ heap.get? id = some nd ∧ nodeToJSON nd = none ∧
        ∀ c ∈ nodeChildVals nd, cleanN heap n c

/-- Reachability from a value to a heap object id, following container
children. -/
inductive VReach (heap : List Node) : JsValue → Nat → Prop where
  | here (id : Nat) : VReach heap (.ref id) id
  | step (id : Nat) (nd : Node) (c : JsValue) (j : Nat) :
      heap.get? id = some nd → c ∈ nodeChildVals nd → VReach heap c j →
      VReach heap (.ref id) j

/-- Counterexample fixture for C8: object 0's `toJSON` returns object 1,
whose own `toJSON` returns the string `"w"`. The source applies `toJSON`
only to the value it was called on, so the first sanitization returns
object 1 un-invoked, and sanitizing again invokes it. -/
def c8Heap : List Node :=
  [Node.objN [] (some (.ref 1)), Node.objN [] (some (.strV "w"))]

/-- Witness fixtures for the cause-chain claims: `TypeError('fail')` whose
`cause` is `Error('real error')` (the repository's 'handles errors with
cause' test). -/
def c6Root : ErrObj :=
  { isError := true, isBoom := false, isBoomCtor := false,
    name := "TypeError", ctorName := "TypeError",
    message := some "fail", stack := some "st0",
    cause := some (.refE 1), data := none, code := none,
    outputStatusCode := none }

def c6Mid : ErrObj :=
  { isError := true, isBoom := false, isBoomCtor := false,
    name := "Error", ctorName := "Error",
    message := some "real error", stack := some "st1",
    cause := none, data := none, code := none,
    outputStatusCode := none }

def c6Heap : List ErrObj := [c6Root, c6Mid]

-- Sanity checks against the serializer tests.
-- 'handles errors with cause': TypeError('fail') with cause Error('real error')
example :
    (errSerializer
      [{ isError := true, isBoom := false, isBoomCtor := false,
         name := "TypeError", ctorName := "TypeError",
         message := some "fail", stack := some "TypeError: fail\n  at x",
         cause := some (.refE 1), data := none, code := none,
         outputStatusCode := none },
       { isError := true, isBoom := false, isBoomCtor := false,
         name := "Error", ctorName := "Error",
         message := some "real error", stack := some "Error: real error\n  at y",
         cause := none, data := none, code := none,
         outputStatusCode := none }] (.refE 0)).1 =
    .record { type := "TypeError", message := "fail: real error",
              code := none, data := none,
              stack := some "TypeError: fail\n  at x\ncaused by: Error: real error\n  at y" } := by
  decide

-- 'handles errors with circular cause'
example :
    (errSerializer
      [{ isError := true, isBoom := false, isBoomCtor := false,
         name := "TypeError", ctorName := "TypeError",
         message := some "fail", stack := some "st0",
         cause := some (.refE 1), data := none, code := none,
         outputStatusCode := none },
       { isError := true, isBoom := false, isBoomCtor := false,
         name := "Error", ctorName := "Error",
         message := some "real error", stack := some "st1",
         cause := some (.refE 0), data := none, code := none,
         outputStatusCode := none }] (.refE 0)).1 =
    .record { type := "TypeError", message := "fail: real error: ...",
              code := none, data := none,
              stack := some
                "st0\ncaused by: st1\ncauses have become circular..." } := by
  decide

-- 'handles errors with non-error cause'
example :
    (errSerializer
      [{ isError := true, isBoom := false, isBoomCtor := false,
         name := "TypeError", ctorName := "TypeError",
         message := some "fail", stack := some "st0",
         cause := some (.strE "nothing"), data := none, code := none,
         outputStatusCode := none }] (.refE 0)).1 =
    .record { type := "TypeError", message := "fail: nothing",
              code := none, data := none, stack := some "st0" } := by
  decide

-- 'handles boomified errors': Boom.boomify(new TypeError('fail'))
example :
    errorName []
      { isError := true, isBoom := true, isBoomCtor := false,
        name := "TypeError", ctorName := "TypeError",
        message := some "fail", stack := none, cause := none, data := none,
        code := none, outputStatusCode := some 500 } = "Boom(TypeError)" := by
  decide

-- 'handles regular boom errors': Boom.forbidden(...)
example :
    errorName []
      { isError := true, isBoom := true, isBoomCtor := true,
        name := "Boom", ctorName := "Boom",
        message := some "DO NOT ENTER!", stack := none, cause := none,
        data := none, code := none, outputStatusCode := some 403 } = "Boom" := by
  decide

-- Sanity checks against the repository's tests: BigInt rendering,
-- toJSON conversion, circular replacement, sharing not flagged.
example : safeJsonObject [] (.bigintV 1000) = .out (.strV "1000n") [] := by decide

example :
    safeJsonObject [Node.objN [("a", .ref 0)] none] (.ref 0) =
      .out (.ref 1) [Node.objN [("a", .strV "[Circular]")] none] := by decide

example :
    safeJsonObject [Node.objN [("x", .ref 1), ("y", .ref 1)] none, Node.objN [] none]
      (.ref 0) = .out (.ref 0) [] := by decide

example :
    safeJsonObject [Node.objN [] (some (.strV "3"))] (.ref 0) =
      .out (.strV "3") [] := by decide

-- `server.log(['my', 'app'], …)` with tagLevels { hello: debug, my: warn }
-- (test: supports custom server "app" event levels)
example :
    lookupLevel ["my", "app"] "info"
      (pinoValues ++ [("hello", 20), ("my", 40)]) = some "warn" := by decide

example : lookupLevel ["plain"] "info" pinoValues = some "info" := by decide

example : (runLevelChanges 30 []).logApp = true := by decide
example : (runLevelChanges 30 [50]).logApp = false := by decide
example : (runLevelChanges 30 [50, 30]).logApp = true := by decide
example : (runLevelChanges 30 [50]).requestInternal = false := by decide
example : (runLevelChanges 20 []).requestInternal = true := by decide

theorem seenMeasure_snoc_lt {n id : Nat} {seen : List Nat}
    (hid : id < n) (hni : id ∉ seen) :
    seenMeasure n (seen ++ [id]) < seenMeasure n seen := by
  apply Finset.card_lt_card
  have hsub : (Finset.range n).filter (fun i => i ∉ seen ++ [id]) ⊆
      (Finset.range n).filter (fun i => i ∉ seen) := by
    intro i hi
    simp only [Finset.mem_filter, List.mem_append, List.mem_singleton] at hi ⊢
    exact ⟨hi.1, fun h => hi.2 (Or.inl h)⟩
  refine (Finset.ssubset_iff_of_subset hsub).mpr ⟨id, ?_, ?_⟩
  · simp only [Finset.mem_filter, Finset.mem_range]
    exact ⟨hid, hni⟩
  · simp

theorem addCauseF_enough (fuel : Nat) (heap : List ErrObj) :
    ∀ (serialized : SerRecord) (error : Option EVal) (withStack : Bool)
      (seen : List Nat), seenMeasure heap.length seen < fuel →
      addCauseF fuel heap serialized error withStack seen ≠ none := by
  induction fuel with
  | zero => intro _ _ _ _ h; omega
  | succ fuel ih =>
    intro serialized error withStack seen hm
    cases error with
    | none => simp [addCauseF]
    | some c =>
      cases c with
      | strE s => simp [addCauseF]
      | numE n => simp [addCauseF]
      | refE id =>
        by_cases hIn : id ∈ seen
        · simp [addCauseF, hIn]
        · cases hget : heap.get? id with
          | none =>
            have hget2 : heap[id]? = none := by
              rw [← List.get?_eq_getElem?]; exact hget
            simp [addCauseF, hIn, hget2]
          | some o =>
            have hget2 : heap[id]? = some o := by
              rw [← List.get?_eq_getElem?]; exact hget
            by_cases herr : o.isError = true
            · have hlt : id < heap.length := by
                by_contra hge
                rw [List.get?_eq_none.mpr (Nat.le_of_not_lt hge)] at hget
                exact Option.noConfusion hget
              have hm2 : seenMeasure heap.length (seen ++ [id]) < fuel := by
                have := @seenMeasure_snoc_lt _ _ seen hlt hIn
                omega
              simp only [addCauseF, hIn, hget, hget2, herr, decide_False,
                Bool.false_eq_true, if_false, if_true, ne_eq, Option.map_eq_none']
              exact ih _ (errorCause heap o) withStack (seen ++ [id]) hm2
            · simp [addCauseF, hIn, hget2, herr]

/-- C1: the response translator chooses levels as claimed: a falsy gate
result suppresses the response line entirely but still runs the trace-level
associated-error check; a (truthy) string gate result forces that level;
otherwise the level is info below 400, warn for 400–499, error for 500 and
above; and with no response object a `request-aborted` record is written at
debug level. -/
theorem onResponseHandler_level_selection (te : Bool) (lr : Option JsValue)
    (resp : Option ResponseInfo) (id : String) :
    onResponseHandler te lr resp id = claimResponseActions te lr resp id := by
  cases resp with
  | none => cases lr <;> simp [onResponseHandler, claimResponseActions]
  | some r =>
    have hlvl : (if r.statusCode ≥ 400 then
        (if r.statusCode ≥ 500 then "error" else "warn") else "info") =
        claimStatusLevel r.statusCode := by
      unfold claimStatusLevel
      split_ifs <;> first | rfl | omega
    have hErr : (if r.hasError then logResponseError te r id else []) =
        logResponseError te r id := by
      cases hr : r.hasError
      · simp [logResponseError, hr]
      · simp
    cases lr with
    | none => simp [onResponseHandler, claimResponseActions, hlvl, hErr]
    | some g =>
      by_cases hf : jsFalsy g = true
      · simp [onResponseHandler, claimResponseActions, hf]
      · cases g <;>
          simp_all [onResponseHandler, claimResponseActions, jsFalsy, hlvl, hErr]

/-- C2: `safeHandler` catches every thrown value (nothing propagates: its
result type is pure), emitting exactly one fatal `nipo-error` record with
fields server/type/message/stack on the event logger; a falsy thrown value
is replaced by a synthesized `Error` whose message names the handler. -/
theorem safeHandler_fault_isolation {α β : Type} (handler serverId : String)
    (boundFn : α → Except JsThrow β) (args : α) :
    (∀ b, boundFn args = .ok b →
      safeHandler handler serverId boundFn args = (some b, [])) ∧
    (∀ e, boundFn args = .error e →
      safeHandler handler serverId boundFn args =
        (none,
          [{ server := serverId,
             type := if jsThrowFalsy e then some "Error" else throwCtor e,
             message := if jsThrowFalsy e then
                 some ("Unknown throw during: " ++ handler)
               else throwMessage e,
             stack := if jsThrowFalsy e then
                 some (newErrorStack ("Unknown throw during: " ++ handler))
               else throwStack e,
             msg := "nipo-error" }])) := by
  constructor
  · intro b hb
    simp [safeHandler, hb]
  · intro e he
    by_cases hf : jsThrowFalsy e = true <;>
      simp [safeHandler, he, hf, throwCtor, throwMessage, throwStack]

/-- Witness for C2 at a concrete input: the handler that throws `undefined`
(as in the repository test) yields the synthesized message. -/
theorem safeHandler_fault_isolation_witness :
    safeHandler "onResponseHandler" "srv-1"
      (fun _ : Unit => (.error .undef : Except JsThrow Unit)) () =
      (none,
        [{ server := "srv-1", type := some "Error",
           message := some "Unknown throw during: onResponseHandler",
           stack := some (newErrorStack "Unknown throw during: onResponseHandler"),
           msg := "nipo-error" }]) := by
  have h := (safeHandler_fault_isolation "onResponseHandler" "srv-1"
    (fun _ : Unit => (.error .undef : Except JsThrow Unit)) ()).2 .undef rfl
  simpa using h

theorem lookup_mem : ∀ {l : List (String × Nat)} {a : String} {b : Nat},
    l.lookup a = some b → (a, b) ∈ l := by
  intro l
  induction l with
  | nil => intro a b h; simp [List.lookup] at h
  | cons p rest ih =>
    intro a b h
    obtain ⟨k, v⟩ := p
    rw [List.lookup] at h
    by_cases he : a = k
    · subst he
      simp only [beq_self_eq_true] at h
      cases h
      exact List.mem_cons_self _ _
    · have hne : (a == k) = false := beq_eq_false_iff_ne.mpr he
      rw [hne] at h
      exact List.mem_cons_of_mem _ (ih h)

theorem foldF_filterMap (map : List (String × Nat)) :
    ∀ (tags : List String) (acc : Int),
      tags.foldl (fun level tag =>
        match map.lookup tag with
        | some tagLevel => if (tagLevel : Int) > level then (tagLevel : Int) else level
        | none => level) acc =
      (tags.filterMap (fun t => map.lookup t)).foldl
        (fun level v => if (v : Int) > level then (v : Int) else level) acc := by
  intro tags
  induction tags with
  | nil => intro acc; rfl
  | cons t rest ih =>
    intro acc
    cases hl : map.lookup t <;> simp [List.filterMap_cons, hl, ih]

theorem foldMax_spec (ms : List Nat) :
    ∀ (acc : Int),
      acc ≤ ms.foldl (fun level v => if (v : Int) > level then (v : Int) else level) acc ∧
      (∀ v ∈ ms,
        (v : Int) ≤ ms.foldl (fun level v => if (v : Int) > level then (v : Int) else level) acc) ∧
      (ms.foldl (fun level v => if (v : Int) > level then (v : Int) else level) acc = acc ∨
        ∃ v ∈ ms,
          ms.foldl (fun level v => if (v : Int) > level then (v : Int) else level) acc = (v : Int)) := by
  induction ms with
  | nil =>
    intro acc
    exact ⟨le_refl _, by simp, Or.inl rfl⟩
  | cons m rest ih =>
    intro acc
    obtain ⟨h1, h2, h3⟩ := ih (if (m : Int) > acc then (m : Int) else acc)
    have hacc : acc ≤ (if (m : Int) > acc then (m : Int) else acc) := by
      split_ifs with h
      · omega
      · exact le_refl _
    have hm : (m : Int) ≤ (if (m : Int) > acc then (m : Int) else acc) := by
      split_ifs with h
      · exact le_refl _
      · omega
    refine ⟨le_trans hacc h1, ?_, ?_⟩
    · intro v hv
      rcases List.mem_cons.mp hv with hv | hv
      · subst hv
        simpa using le_trans hm h1
      · simpa using h2 v hv
    · rcases h3 with h3 | ⟨v, hv, h3⟩
      · by_cases h : (m : Int) > acc
        · right
          refine ⟨m, List.mem_cons_self _ _, ?_⟩
          simpa [h] using h3
        · left
          simpa [h] using h3
      · right
        exact ⟨v, List.mem_cons_of_mem _ hv, by simpa using h3⟩

/-- C3: `lookupLevel` returns the label of the maximum mapped value among
the tags found in the map, and the default level when no tag matches;
unmapped tags are ignored. The hypothesis that every map value is a labelled
pino level holds for every map `prepareLevelMap` builds. -/
theorem lookupLevel_max_matched (tags : List String) (d : String)
    (map : List (String × Nat))
    (hvalid : ∀ p ∈ map, (pinoLabels p.2).isSome = true) :
    (tags.filterMap (fun t => map.lookup t) = [] →
      lookupLevel tags d map = some d) ∧
    (tags.filterMap (fun t => map.lookup t) ≠ [] →
      ∃ v ∈ tags.filterMap (fun t => map.lookup t),
        (∀ w ∈ tags.filterMap (fun t => map.lookup t), w ≤ v) ∧
        lookupLevel tags d map = pinoLabels v ∧ (pinoLabels v).isSome = true) := by
  unfold lookupLevel
  rw [foldF_filterMap]
  obtain ⟨h1, h2, h3⟩ := foldMax_spec (tags.filterMap (fun t => map.lookup t)) (-1)
  constructor
  · intro hnil
    rw [hnil]
    simp
  · intro hne
    obtain ⟨v0, hv0⟩ := List.exists_mem_of_ne_nil _ hne
    rcases h3 with h3 | ⟨v, hv, h3⟩
    · exfalso
      have := h2 v0 hv0
      rw [h3] at this
      omega
    · refine ⟨v, hv, ?_, ?_, ?_⟩
      · intro w hw
        have := h2 w hw
        rw [h3] at this
        exact_mod_cast this
      · have hne1 : ¬ ((tags.filterMap (fun t => map.lookup t)).foldl
            (fun level v => if (v : Int) > level then (v : Int) else level) (-1) = -1) := by
          rw [h3]
          omega
        simp only [hne1, if_false, h3, Int.toNat_natCast]
        rw [if_neg (by omega : ¬ ((v : Int) = -1))]
      · obtain ⟨t, _, hlook⟩ := List.mem_filterMap.mp hv
        exact hvalid _ (lookup_mem hlook)

/-- Witness for C3 at the concrete tag set of the repository test. -/
theorem lookupLevel_max_matched_witness :
    ∃ v ∈ (["my", "app"].filterMap
        (fun t => (pinoValues ++ [("hello", 20), ("my", 40)]).lookup t)),
      (∀ w ∈ (["my", "app"].filterMap
        (fun t => (pinoValues ++ [("hello", 20), ("my", 40)]).lookup t)), w ≤ v) ∧
      lookupLevel ["my", "app"] "info" (pinoValues ++ [("hello", 20), ("my", 40)]) =
        pinoLabels v ∧ (pinoLabels v).isSome = true := by
  exact (lookupLevel_max_matched ["my", "app"] "info"
    (pinoValues ++ [("hello", 20), ("my", 40)]) (by decide)).2 (by decide)

/-- Counterexample for C5: a 503 response carrying an internal error, with
trace enabled, does get a trace record — the code only suppresses the check
for status exactly 500, not for every 5xx status, contradicting the claim
that "for 5xx responses no such trace record is emitted". -/
theorem logResponseError_c5_counterexample :
    500 ≤ 503 ∧
    logResponseError true { statusCode := 503, hasError := true } "req1" ≠ [] := by
  decide

/-- C5 as amended: the trace-level `request-internal` record is emitted iff
the response carries an internal error, the status code is not exactly 500,
and trace level is enabled on the event logger; the record carries the
request id, the fixed tags and the error. -/
theorem logResponseError_only_500 (te : Bool) (resp : ResponseInfo) (id : String) :
    (logResponseError te resp id ≠ [] ↔
      (resp.hasError = true ∧ resp.statusCode ≠ 500 ∧ te = true)) ∧
    (∀ a ∈ logResponseError te resp id,
      a = { logger := .eventL, level := "trace", msg := "request-internal",
            tags := ["request", "response", "error"], request := some id,
            errAttached := true }) := by
  unfold logResponseError
  split_ifs with h
  · refine ⟨⟨fun _ => h, fun _ => by simp⟩, ?_⟩
    intro a ha
    simpa using ha
  · refine ⟨⟨fun hc => absurd rfl hc, fun hc => absurd hc h⟩, ?_⟩
    intro a ha
    simp at ha

/-- Witness for C5's amended theorem at the repository test's 400-status
validation failure. -/
theorem logResponseError_only_500_witness :
    logResponseError true { statusCode := 400, hasError := true } "id7" ≠ [] := by
  exact (logResponseError_only_500 true
    { statusCode := 400, hasError := true } "id7").1.mpr ⟨rfl, by decide, rfl⟩

/-- Counterexample for C7: a Boom-class error without an explicit `cause`
whose `data` payload is a `TypeError` keeps the plain `Boom` label — the
label logic reads only `error.cause`, never the `errorCause` data fallback
the claim describes. -/
theorem errorName_c7_counterexample :
    errorName c7Heap c7Boom = "Boom" ∧
    claimErrorName c7Heap c7Boom = "Boom(TypeError)" ∧
    errorName c7Heap c7Boom ≠ claimErrorName c7Heap c7Boom := by
  decide

/-- C7 as amended: the serializer's type label for Boom errors consults only
the explicit `cause` property for the inner name (the data-payload fallback
of the cause chain does not influence the label), boomified errors always
use their own name, and generic errors keep their name. -/
theorem errorName_amended_eq (heap : List ErrObj) (o : ErrObj) :
    errorName heap o = amendedErrorName heap o := by
  by_cases hb : o.isBoom = true
  · by_cases hbc : o.isBoomCtor = true
    · cases hcz : o.cause with
      | none =>
        by_cases hn : o.name = o.ctorName <;>
          simp [errorName, amendedErrorName, explicitCauseName, boomLabel,
            hb, hbc, hcz, hn]
      | some cv =>
        cases cv with
        | strE s =>
          by_cases hn : o.name = o.ctorName <;>
            simp [errorName, amendedErrorName, explicitCauseName, boomLabel,
              hb, hbc, hcz, hn]
        | numE n =>
          by_cases hn : o.name = o.ctorName <;>
            simp [errorName, amendedErrorName, explicitCauseName, boomLabel,
              hb, hbc, hcz, hn]
        | refE cid =>
          cases hg : heap.get? cid with
          | none =>
            have hg2 : heap[cid]? = none := by
              rw [← List.get?_eq_getElem?]; exact hg
            by_cases hn : o.name = o.ctorName <;>
              simp [errorName, amendedErrorName, explicitCauseName, boomLabel,
                hb, hbc, hcz, hg, hg2, hn]
          | some c =>
            have hg2 : heap[cid]? = some c := by
              rw [← List.get?_eq_getElem?]; exact hg
            by_cases herr : c.isError = true
            · by_cases hcn : c.name = "Error"
              · by_cases hn : o.name = o.ctorName <;>
                  simp [errorName, amendedErrorName, explicitCauseName, boomLabel,
                    hb, hbc, hcz, hg, hg2, herr, hcn, hn]
              · simp [errorName, amendedErrorName, explicitCauseName, boomLabel,
                  hb, hbc, hcz, hg, hg2, herr, hcn]
            · by_cases hn : o.name = o.ctorName <;>
                simp [errorName, amendedErrorName, explicitCauseName, boomLabel,
                  hb, hbc, hcz, hg, hg2, herr, hn]
    · simp [errorName, amendedErrorName, boomLabel, hb, hbc]
  · simp [errorName, amendedErrorName, hb]

theorem pinoValues_lookup_debug : pinoValues.lookup "debug" = some 20 := by decide

theorem pinoValues_lookup_info : pinoValues.lookup "info" = some 30 := by decide

theorem onLevelChange_init (v0 : Nat) :
    (onLevelChange v0 none {}).1.requestInternal = decide (20 ≥ v0) ∧
    (onLevelChange v0 none {}).1.logInternal = decide (20 ≥ v0) ∧
    (onLevelChange v0 none {}).1.requestApp = decide (30 ≥ v0) ∧
    (onLevelChange v0 none {}).1.logApp = decide (30 ≥ v0) := by
  simp only [onLevelChange, levelChanged, pinoValues_lookup_debug,
    pinoValues_lookup_info, Option.getD_some]
  by_cases h1 : 20 ≥ v0 <;> by_cases h2 : 30 ≥ v0 <;>
    simp [h1, h2, SubState.requestInternal, SubState.logInternal,
      SubState.requestApp, SubState.logApp]

theorem onLevelChange_step (val prev : Nat) (s : SubState)
    (h1 : s.requestInternal = decide (20 ≥ prev))
    (h2 : s.logInternal = decide (20 ≥ prev))
    (h3 : s.requestApp = decide (30 ≥ prev))
    (h4 : s.logApp = decide (30 ≥ prev)) :
    (onLevelChange val (some prev) s).1.requestInternal = decide (20 ≥ val) ∧
    (onLevelChange val (some prev) s).1.logInternal = decide (20 ≥ val) ∧
    (onLevelChange val (some prev) s).1.requestApp = decide (30 ≥ val) ∧
    (onLevelChange val (some prev) s).1.logApp = decide (30 ≥ val) := by
  simp only [onLevelChange, levelChanged, pinoValues_lookup_debug,
    pinoValues_lookup_info, Option.getD_some]
  by_cases e1 : decide (20 ≥ val) = decide (20 ≥ prev) <;>
    by_cases e2 : decide (30 ≥ val) = decide (30 ≥ prev) <;>
      simp [e1, e2, h1, h2, h3, h4]

theorem runLevelChanges_fold (vs : List Nat) :
    ∀ (s : SubState) (v : Nat),
      s.requestInternal = decide (20 ≥ v) → s.logInternal = decide (20 ≥ v) →
      s.requestApp = decide (30 ≥ v) → s.logApp = decide (30 ≥ v) →
      ((vs.foldl (fun acc w => ((onLevelChange w (some acc.2) acc.1).1, w))
          (s, v)).1.requestInternal = decide (20 ≥ vs.getLastD v) ∧
       (vs.foldl (fun acc w => ((onLevelChange w (some acc.2) acc.1).1, w))
          (s, v)).1.logInternal = decide (20 ≥ vs.getLastD v) ∧
       (vs.foldl (fun acc w => ((onLevelChange w (some acc.2) acc.1).1, w))
          (s, v)).1.requestApp = decide (30 ≥ vs.getLastD v) ∧
       (vs.foldl (fun acc w => ((onLevelChange w (some acc.2) acc.1).1, w))
          (s, v)).1.logApp = decide (30 ≥ vs.getLastD v)) := by
  induction vs with
  | nil =>
    intro s v h1 h2 h3 h4
    exact ⟨h1, h2, h3, h4⟩
  | cons w ws ih =>
    intro s v h1 h2 h3 h4
    have hstep := onLevelChange_step w v s h1 h2 h3 h4
    have hrec := ih (onLevelChange w (some v) s).1 w
      hstep.1 hstep.2.1 hstep.2.2.1 hstep.2.2.2
    rw [List.foldl_cons, List.getLastD_cons]
    exact hrec

/-- C9: starting unsubscribed, after the mandatory initial `onLevelChange`
call and any sequence of subsequent calls threading the prior threshold,
each handler group is subscribed iff its reference level (20 for the
debug-tier group, 30 for the info-tier group) is at least the latest
threshold; and a call whose activity boolean does not flip leaves that
group's state untouched and performs no subscribe/unsubscribe action for
it. -/
theorem onLevelChange_subscription_invariant :
    (∀ (v0 : Nat) (vs : List Nat),
      (runLevelChanges v0 vs).requestInternal = decide (20 ≥ vs.getLastD v0) ∧
      (runLevelChanges v0 vs).logInternal = decide (20 ≥ vs.getLastD v0) ∧
      (runLevelChanges v0 vs).requestApp = decide (30 ≥ vs.getLastD v0) ∧
      (runLevelChanges v0 vs).logApp = decide (30 ≥ vs.getLastD v0)) ∧
    (∀ (val : Nat) (prevVal : Option Nat) (s : SubState),
      levelChanged pinoValues val prevVal "debug" = none →
      ((onLevelChange val prevVal s).1.requestInternal = s.requestInternal ∧
       (onLevelChange val prevVal s).1.logInternal = s.logInternal ∧
       ∀ h, SubAction.subscribe h ∈ (onLevelChange val prevVal s).2 ∨
            SubAction.unsubscribe h ∈ (onLevelChange val prevVal s).2 →
            h = "requestApp" ∨ h = "logApp")) ∧
    (∀ (val : Nat) (prevVal : Option Nat) (s : SubState),
      levelChanged pinoValues val prevVal "info" = none →
      ((onLevelChange val prevVal s).1.requestApp = s.requestApp ∧
       (onLevelChange val prevVal s).1.logApp = s.logApp ∧
       ∀ h, SubAction.subscribe h ∈ (onLevelChange val prevVal s).2 ∨
            SubAction.unsubscribe h ∈ (onLevelChange val prevVal s).2 →
            h = "requestInternal" ∨ h = "logInternal")) := by
  refine ⟨?_, ?_, ?_⟩
  · intro v0 vs
    have hinit := onLevelChange_init v0
    have := runLevelChanges_fold vs (onLevelChange v0 none {}).1 v0
      hinit.1 hinit.2.1 hinit.2.2.1 hinit.2.2.2
    simpa [runLevelChanges] using this
  · intro val prevVal s hdbg
    have hd : levelChanged pinoValues val prevVal "debug" = none := hdbg
    cases hinf : levelChanged pinoValues val prevVal "info" with
    | none =>
      refine ⟨by simp [onLevelChange, hd], by simp [onLevelChange, hd], ?_⟩
      intro h hmem
      simp [onLevelChange, hd, hinf] at hmem
    | some b =>
      refine ⟨by simp [onLevelChange, hd], by simp [onLevelChange, hd], ?_⟩
      intro h hmem
      cases b <;> simp [onLevelChange, hd, hinf] at hmem <;> tauto
  · intro val prevVal s hinf
    cases hd : levelChanged pinoValues val prevVal "debug" with
    | none =>
      refine ⟨by simp [onLevelChange, hinf], by simp [onLevelChange, hinf], ?_⟩
      intro h hmem
      simp [onLevelChange, hd, hinf] at hmem
    | some b =>
      refine ⟨by simp [onLevelChange, hinf], by simp [onLevelChange, hinf], ?_⟩
      intro h hmem
      cases b <;> simp [onLevelChange, hd, hinf] at hmem <;> tauto

/-- Witness for C9 at concrete thresholds: a threshold move from 35 to 40
does not flip the debug-tier activity (both inactive), so its handlers keep
their state. -/
theorem onLevelChange_subscription_invariant_witness :
    (onLevelChange 40 (some 35)
      { requestInternal := false, logInternal := false,
        requestApp := false, logApp := false }).1.requestInternal = false := by
  have h := onLevelChange_subscription_invariant.2.1 40 (some 35)
    { requestInternal := false, logInternal := false,
      requestApp := false, logApp := false } (by decide)
  exact h.1

theorem joinSegs_collapse (l : List String) (a b : String) :
    joinSegs ((a ++ ": " ++ b) :: l) = a ++ ": " ++ joinSegs (b :: l) := by
  cases l with
  | nil => rfl
  | cons x xs =>
    show (a ++ ": " ++ b) ++ ": " ++ joinSegs (x :: xs) =
      a ++ ": " ++ (b ++ ": " ++ joinSegs (x :: xs))
    simp [String.append_assoc]

theorem msgAfter_eq_joinSegs (heap : List ErrObj) :
    ∀ (ids : List Nat) (base : String),
      msgAfter heap base ids =
        joinSegs (base :: ids.map (fun j => evalMessage heap (.refE j))) := by
  intro ids
  induction ids with
  | nil => intro base; rfl
  | cons j rest ih =>
    intro base
    show msgAfter heap (base ++ ": " ++ evalMessage heap (.refE j)) rest = _
    rw [ih, List.map_cons, joinSegs_collapse]
    rfl

theorem addCauseF_chain (heap : List ErrObj) (ws : Bool) :
    ∀ (ids : List Nat) (fuel : Nat) (cv : Option EVal) (ser : SerRecord)
      (seen : List Nat),
      ids.length + 1 ≤ fuel →
      ChainFrom heap cv ids →
      (∀ j ∈ ids, j ∉ seen) →
      ids.Nodup →
      addCauseF fuel heap ser cv ws seen =
        some ({ ser with
                 message := msgAfter heap ser.message ids,
                 stack := if ws then
                     ser.stack.map (fun st => stackAfter heap st ids)
                   else ser.stack },
              ids.length + 1) := by
  intro ids
  induction ids with
  | nil =>
    intro fuel cv ser seen hfuel hchain _ _
    have hcv : cv = none := hchain
    cases fuel with
    | zero => omega
    | succ f =>
      subst hcv
      cases ws <;>
        first
        | rfl
        | simp [addCauseF, msgAfter, stackAfter, Option.map_id']
  | cons j rest ih =>
    intro fuel cv ser seen hfuel hchain hfresh hnd
    obtain ⟨oj, hcv, hget, herr, hrest⟩ := hchain
    subst hcv
    cases fuel with
    | zero => omega
    | succ f =>
      have hj : j ∉ seen := hfresh j (List.mem_cons_self _ _)
      have hfresh2 : ∀ i ∈ rest, i ∉ seen ++ [j] := by
        intro i hi
        have hnd2 := List.nodup_cons.mp hnd
        simp only [List.mem_append, List.mem_singleton]
        rintro (h | h)
        · exact hfresh i (List.mem_cons_of_mem _ hi) h
        · exact hnd2.1 (h ▸ hi)
      have hnd2 : rest.Nodup := (List.nodup_cons.mp hnd).2
      have hrec := ih f (errorCause heap oj)
        (if ws then
          { ser with
            message := ser.message ++ ": " ++ evalMessage heap (.refE j),
            stack := (ser.stack.map (fun st => st ++ causeStackSeg heap j)) }
         else
          { ser with
            message := ser.message ++ ": " ++ evalMessage heap (.refE j) })
        (seen ++ [j]) (by simpa using Nat.le_of_succ_le_succ hfuel) hrest hfresh2 hnd2
      rw [addCauseF]
      simp only [hj, decide_False, Bool.false_eq_true, if_false, hget, herr, if_true]
      cases ws with
      | false =>
        simp only [Bool.false_eq_true, if_false] at hrec ⊢
        rw [hrec]
        simp only [Option.map_some']
        congr 1
      | true =>
        simp only [eq_self_iff_true, if_true] at hrec ⊢
        rw [hrec]
        simp only [Option.map_some', Option.map_map]
        congr 1

theorem addCauseF_chainCyc (heap : List ErrObj) (ws : Bool) :
    ∀ (ids : List Nat) (fuel : Nat) (cv : Option EVal) (ser : SerRecord)
      (seen : List Nat) (c : Nat),
      ids.length + 1 ≤ fuel →
      ChainFromCyc heap cv ids c →
      (∀ j ∈ ids, j ∉ seen) →
      ids.Nodup →
      (c ∈ seen ∨ c ∈ ids) →
      addCauseF fuel heap ser cv ws seen =
        some ({ ser with
                 message := msgAfter heap ser.message ids ++ ": ...",
                 stack := if ws then
                     ser.stack.map (fun st =>
                       stackAfter heap st ids ++ "\ncauses have become circular...")
                   else ser.stack },
              ids.length + 1) := by
  intro ids
  induction ids with
  | nil =>
    intro fuel cv ser seen c hfuel hchain _ _ hc
    have hcv : cv = some (.refE c) := hchain
    have hcs : c ∈ seen := by
      rcases hc with h | h
      · exact h
      · simp at h
    cases fuel with
    | zero => omega
    | succ f =>
      subst hcv
      rw [addCauseF]
      simp only [hcs, decide_True, if_true]
      cases ws with
      | false =>
        simp only [Bool.false_eq_true, if_false]
        rfl
      | true =>
        simp only [eq_self_iff_true, if_true]
        rfl
  | cons j rest ih =>
    intro fuel cv ser seen c hfuel hchain hfresh hnd hc
    obtain ⟨oj, hcv, hget, herr, hrest⟩ := hchain
    subst hcv
    cases fuel with
    | zero => omega
    | succ f =>
      have hj : j ∉ seen := hfresh j (List.mem_cons_self _ _)
      have hfresh2 : ∀ i ∈ rest, i ∉ seen ++ [j] := by
        intro i hi
        have hnd2 := List.nodup_cons.mp hnd
        simp only [List.mem_append, List.mem_singleton]
        rintro (h | h)
        · exact hfresh i (List.mem_cons_of_mem _ hi) h
        · exact hnd2.1 (h ▸ hi)
      have hnd2 : rest.Nodup := (List.nodup_cons.mp hnd).2
      have hc2 : c ∈ seen ++ [j] ∨ c ∈ rest := by
        rcases hc with h | h
        · exact Or.inl (List.mem_append_left _ h)
        · rcases List.mem_cons.mp h with h | h
          · exact Or.inl (List.mem_append_right _ (by simp [h]))
          · exact Or.inr h
      have hrec := ih f (errorCause heap oj)
        (if ws then
          { ser with
            message := ser.message ++ ": " ++ evalMessage heap (.refE j),
            stack := (ser.stack.map (fun st => st ++ causeStackSeg heap j)) }
         else
          { ser with
            message := ser.message ++ ": " ++ evalMessage heap (.refE j) })
        (seen ++ [j]) c (by simpa using Nat.le_of_succ_le_succ hfuel)
        hrest hfresh2 hnd2 hc2
      rw [addCauseF]
      simp only [hj, decide_False, Bool.false_eq_true, if_false, hget, herr, if_true]
      cases ws with
      | false =>
        simp only [Bool.false_eq_true, if_false] at hrec ⊢
        rw [hrec]
        simp only [Option.map_some']
        congr 1
      | true =>
        simp only [eq_self_iff_true, if_true] at hrec ⊢
        rw [hrec]
        simp only [Option.map_some', Option.map_map]
        congr 1

theorem chainFrom_ids_lt (heap : List ErrObj) :
    ∀ (ids : List Nat) (cv : Option EVal), ChainFrom heap cv ids →
      ∀ j ∈ ids, j < heap.length := by
  intro ids
  induction ids with
  | nil => intro cv _ j hj; simp at hj
  | cons i rest ih =>
    intro cv hchain j hj
    obtain ⟨oi, _, hget, _, hrest⟩ := hchain
    rcases List.mem_cons.mp hj with h | h
    · subst h
      by_contra hge
      rw [List.get?_eq_none.mpr (Nat.le_of_not_lt hge)] at hget
      exact Option.noConfusion hget
    · exact ih _ hrest j h

theorem chainFromCyc_ids_lt (heap : List ErrObj) :
    ∀ (ids : List Nat) (cv : Option EVal) (c : Nat), ChainFromCyc heap cv ids c →
      ∀ j ∈ ids, j < heap.length := by
  intro ids
  induction ids with
  | nil => intro cv c _ j hj; simp at hj
  | cons i rest ih =>
    intro cv c hchain j hj
    obtain ⟨oi, _, hget, _, hrest⟩ := hchain
    rcases List.mem_cons.mp hj with h | h
    · subst h
      by_contra hge
      rw [List.get?_eq_none.mpr (Nat.le_of_not_lt hge)] at hget
      exact Option.noConfusion hget
    · exact ih _ _ hrest j h

theorem length_le_seenMeasure (ids seen : List Nat) (n : Nat)
    (hnd : ids.Nodup) (hlt : ∀ j ∈ ids, j < n) (hfresh : ∀ j ∈ ids, j ∉ seen) :
    ids.length ≤ seenMeasure n seen := by
  have hcard : ids.toFinset.card = ids.length := List.toFinset_card_of_nodup hnd
  rw [← hcard]
  apply Finset.card_le_card
  intro x hx
  rw [List.mem_toFinset] at hx
  simp only [seenMeasure, Finset.mem_filter, Finset.mem_range]
  exact ⟨hlt x hx, hfresh x hx⟩

theorem errSerializer_unfold (heap : List ErrObj) (r : Nat) (root : ErrObj)
    (ws : Bool) (hr : heap.get? r = some root) (hre : root.isError = true) :
    errSerializer heap (.refE r) ws =
      ((fun X : SerRecord × Nat => (SerOut.record X.1, X.2))
        (addCause heap
          { type := errorName heap root
            message := (root.message).getD "undefined"
            code := if root.isBoom then
                (match root.code with
                 | none => root.outputStatusCode.map (fun sc => EVal.numE sc)
                 | some cv => some cv)
              else root.code
            data := if root.isBoom then
                (if root.data = errorCause heap root then none else root.data)
              else root.data
            stack := if ws then root.stack else none }
          (errorCause heap root)
          (ws && (match root.stack with | some _ => true | none => false))
          [r])) := by
  have hr2 : heap[r]? = some root := by
    rw [← List.get?_eq_getElem?]; exact hr
  simp only [errSerializer, hr, hr2, hre, if_true]

/-- C6: for a cause chain of depth k with no cycle, the serialized record's
message is exactly the k+1 segments — the root message followed by each
cause's message in chain order — joined by `': '`, and the walk performs
k+1 steps; for a chain whose last cause link revisits an already-seen
error, the message additionally ends in the literal `': ...'`, the stack
gains the `'\ncauses have become circular...'` note when stack tracing is
on, and the walk still performs only k+1 steps. -/
theorem errSerializer_cause_chain (heap : List ErrObj) (ws : Bool) (r : Nat)
    (root : ErrObj) (m0 : String)
    (hr : heap.get? r = some root) (hre : root.isError = true)
    (hm : root.message = some m0) :
    (∀ ids, ChainFrom heap (errorCause heap root) ids → (r :: ids).Nodup →
      ∃ rec, (errSerializer heap (.refE r) ws).1 = .record rec ∧
        rec.message =
          joinSegs (m0 :: ids.map (fun j => evalMessage heap (.refE j))) ∧
        (errSerializer heap (.refE r) ws).2 = ids.length + 1) ∧
    (∀ ids c, ChainFromCyc heap (errorCause heap root) ids c →
      (r :: ids).Nodup → c ∈ r :: ids →
      ∃ rec, (errSerializer heap (.refE r) ws).1 = .record rec ∧
        rec.message =
          joinSegs (m0 :: ids.map (fun j => evalMessage heap (.refE j))) ++ ": ..." ∧
        (errSerializer heap (.refE r) ws).2 = ids.length + 1 ∧
        (∀ st0, ws = true → root.stack = some st0 →
          ∃ s0, rec.stack = some (s0 ++ "\ncauses have become circular..."))) := by
  constructor
  · intro ids hchain hnd
    have hnds := List.nodup_cons.mp hnd
    have hfresh : ∀ j ∈ ids, j ∉ ([r] : List Nat) := by
      intro j hj
      simp only [List.mem_singleton]
      intro he
      exact hnds.1 (he ▸ hj)
    have hlt := chainFrom_ids_lt heap ids _ hchain
    have hfuel : ids.length + 1 ≤ seenMeasure heap.length [r] + 1 := by
      have := length_le_seenMeasure ids [r] heap.length hnds.2 hlt hfresh
      omega
    have hadd := addCauseF_chain heap
      (ws && (match root.stack with | some _ => true | none => false)) ids
      (seenMeasure heap.length [r] + 1) (errorCause heap root)
      { type := errorName heap root
        message := (root.message).getD "undefined"
        code := if root.isBoom then
            (match root.code with
             | none => root.outputStatusCode.map (fun sc => EVal.numE sc)
             | some cv => some cv)
          else root.code
        data := if root.isBoom then
            (if root.data = errorCause heap root then none else root.data)
          else root.data
        stack := if ws then root.stack else none }
      [r] hfuel hchain hfresh hnds.2
    rw [errSerializer_unfold heap r root ws hr hre]
    unfold addCause
    rw [hadd]
    refine ⟨_, rfl, ?_, rfl⟩
    show msgAfter heap ((root.message).getD "undefined") ids = _
    rw [hm]
    exact msgAfter_eq_joinSegs heap ids m0
  · intro ids c hchain hnd hc
    have hnds := List.nodup_cons.mp hnd
    have hfresh : ∀ j ∈ ids, j ∉ ([r] : List Nat) := by
      intro j hj
      simp only [List.mem_singleton]
      intro he
      exact hnds.1 (he ▸ hj)
    have hlt := chainFromCyc_ids_lt heap ids _ c hchain
    have hfuel : ids.length + 1 ≤ seenMeasure heap.length [r] + 1 := by
      have := length_le_seenMeasure ids [r] heap.length hnds.2 hlt hfresh
      omega
    have hcm : c ∈ ([r] : List Nat) ∨ c ∈ ids := by
      rcases List.mem_cons.mp hc with h | h
      · exact Or.inl (by simp [h])
      · exact Or.inr h
    have hadd := addCauseF_chainCyc heap
      (ws && (match root.stack with | some _ => true | none => false)) ids
      (seenMeasure heap.length [r] + 1) (errorCause heap root)
      { type := errorName heap root
        message := (root.message).getD "undefined"
        code := if root.isBoom then
            (match root.code with
             | none => root.outputStatusCode.map (fun sc => EVal.numE sc)
             | some cv => some cv)
          else root.code
        data := if root.isBoom then
            (if root.data = errorCause heap root then none else root.data)
          else root.data
        stack := if ws then root.stack else none }
      [r] c hfuel hchain hfresh hnds.2 hcm
    rw [errSerializer_unfold heap r root ws hr hre]
    unfold addCause
    rw [hadd]
    refine ⟨_, rfl, ?_, rfl, ?_⟩
    · show msgAfter heap ((root.message).getD "undefined") ids ++ ": ..." = _
      rw [hm]
      simp only [Option.getD_some]
      rw [msgAfter_eq_joinSegs heap ids m0]
    · intro st0 hws hst
      subst hws
      refine ⟨stackAfter heap st0 ids, ?_⟩
      simp [hst]

/-- Witness for C6 at a concrete depth-1 chain: the message has two
segments and the walk takes two steps. -/
theorem errSerializer_cause_chain_witness :
    ∃ rec, (errSerializer c6Heap (.refE 0) true).1 = .record rec ∧
      rec.message =
        joinSegs ("fail" :: [1].map (fun j => evalMessage c6Heap (.refE j))) ∧
      (errSerializer c6Heap (.refE 0) true).2 = [1].length + 1 := by
  exact (errSerializer_cause_chain c6Heap true 0 c6Root "fail" rfl rfl rfl).1 [1]
    ⟨c6Mid, rfl, rfl, rfl, (by decide : errorCause c6Heap c6Mid = none)⟩ (by decide)

theorem sjoChildren_ne_fuelOut (f : JsValue → String → List Node → SJRes) :
    ∀ (children : List (String × JsValue)) (alloc : List Node),
      (∀ p ∈ children, ∀ al, f p.2 p.1 al ≠ .fuelOut) →
      sjoChildren f children alloc ≠ .fuelOut := by
  intro children
  induction children with
  | nil => intro alloc _; simp [sjoChildren]
  | cons p rest ih =>
    intro alloc hf
    obtain ⟨k, v⟩ := p
    rw [sjoChildren]
    have hhead := hf (k, v) (List.mem_cons_self _ _) alloc
    cases hres : f v k alloc with
    | out jv alloc1 =>
      have hrest := ih alloc1 (fun q hq al => hf q (List.mem_cons_of_mem _ hq) al)
      cases hres2 : sjoChildren f rest alloc1 with
      | out vs changed alloc2 => simp [hres2]
      | thrown => simp [hres2]
      | fuelOut => exact absurd hres2 hrest
    | thrown => simp
    | fuelOut => exact absurd hres hhead

theorem get?_lt_length {heap : List Node} {id : Nat} {nd : Node}
    (h : heap.get? id = some nd) : id < heap.length := by
  by_contra hge
  rw [List.get?_eq_none.mpr (Nat.le_of_not_lt hge)] at h
  exact Option.noConfusion h

theorem safeJsonObjectF_ne_fuelOut :
    ∀ (fuel : Nat) (heap : List Node) (v : JsValue) (k : String)
      (stack : List Nat) (alloc : List Node),
      seenMeasure heap.length stack < fuel →
      safeJsonObjectF fuel heap v k stack alloc ≠ .fuelOut := by
  intro fuel
  induction fuel with
  | zero => intro heap v k stack alloc h; omega
  | succ fuel ih =>
    intro heap v k stack alloc hm
    cases v with
    | undef => simp [safeJsonObjectF]
    | jsNull => simp [safeJsonObjectF]
    | boolV b => simp [safeJsonObjectF]
    | numV n => simp [safeJsonObjectF]
    | strV s => simp [safeJsonObjectF]
    | bigintV i => simp [safeJsonObjectF]
    | funcV fid => simp [safeJsonObjectF]
    | ref id0 =>
      rw [safeJsonObjectF]
      rw [if_neg (by simp :
        ¬(JsValue.ref id0 = JsValue.undef ∨ JsValue.ref id0 = JsValue.jsNull))]
      cases hg0 : heap.get? id0 with
      | none =>
        by_cases hin : id0 ∈ stack
        · simp [hg0, hin, ← List.get?_eq_getElem?]
        · simp [hg0, hin, ← List.get?_eq_getElem?]
      | some nd0 =>
        have hid0 : id0 < heap.length := get?_lt_length hg0
        cases ht : nodeToJSON nd0 with
        | none =>
          by_cases hin : id0 ∈ stack
          · simp [hg0, ht, hin]
          · have hms : seenMeasure heap.length (stack ++ [id0]) < fuel := by
              have h1 := @seenMeasure_snoc_lt _ _ stack hid0 hin
              omega
            have hch := sjoChildren_ne_fuelOut
              (fun c kk al => safeJsonObjectF fuel heap c kk (stack ++ [id0]) al)
              (nodeChildren nd0) alloc
              (fun p _ al => ih heap p.2 p.1 (stack ++ [id0]) al hms)
            simp only [hg0, ht, Option.getD_none, hin, if_false]
            cases hres : sjoChildren
                (fun c kk al => safeJsonObjectF fuel heap c kk (stack ++ [id0]) al)
                (nodeChildren nd0) alloc with
            | out vs changed alloc1 =>
              by_cases hc : changed = true <;> simp [hg0, hc]
            | thrown => simp [hg0]
            | fuelOut => exact absurd hres hch
        | some j =>
          cases j with
          | undef => simp [hg0, ht]
          | jsNull =>
            by_cases hin : id0 ∈ stack <;> simp [hg0, ht, hin]
          | boolV b => simp [hg0, ht]
          | numV n => simp [hg0, ht]
          | strV s => simp [hg0, ht]
          | bigintV i => simp [hg0, ht]
          | funcV fid2 => simp [hg0, ht]
          | ref id1 =>
            by_cases hin : id0 ∈ stack
            · simp [hg0, ht, hin]
            · cases hg1 : heap.get? id1 with
              | none => simp [hg0, ht, hin, hg1, ← List.get?_eq_getElem?]
              | some nd1 =>
                have hms : seenMeasure heap.length (stack ++ [id0]) < fuel := by
                  have h1 := @seenMeasure_snoc_lt _ _ stack hid0 hin
                  omega
                have hch := sjoChildren_ne_fuelOut
                  (fun c kk al => safeJsonObjectF fuel heap c kk (stack ++ [id0]) al)
                  (nodeChildren nd1) alloc
                  (fun p _ al => ih heap p.2 p.1 (stack ++ [id0]) al hms)
                simp only [hg0, ht, Option.getD_some, hin, if_false, hg1]
                cases hres : sjoChildren
                    (fun c kk al => safeJsonObjectF fuel heap c kk (stack ++ [id0]) al)
                    (nodeChildren nd1) alloc with
                | out vs changed alloc1 =>
                  by_cases hc : changed = true <;> simp [hc]
                | thrown => simp
                | fuelOut => exact absurd hres hch

theorem cleanN_mono (heap : List Node) :
    ∀ (n m : Nat), n ≤ m → ∀ (v : JsValue), cleanN heap n v → cleanN heap m v := by
  intro n
  induction n with
  | zero =>
    intro m _ v h
    cases m with
    | zero => exact h
    | succ m2 => exact Or.inl h
  | succ n2 ih =>
    intro m hle v h
    cases m with
    | zero => omega
    | succ m2 =>
      rcases h with h | ⟨id, nd, hv, hget, ht, hch⟩
      · exact Or.inl h
      · exact Or.inr ⟨id, nd, hv, hget, ht,
          fun c hc => ih m2 (by omega) c (hch c hc)⟩

theorem cleanN_append (heap ext : List Node) :
    ∀ (n : Nat) (v : JsValue), cleanN heap n v → cleanN (heap ++ ext) n v := by
  intro n
  induction n with
  | zero => intro v h; exact h
  | succ n2 ih =>
    intro v h
    rcases h with h | ⟨id, nd, hv, hget, ht, hch⟩
    · exact Or.inl h
    · refine Or.inr ⟨id, nd, hv, ?_, ht, fun c hc => ih c (hch c hc)⟩
      rw [List.get?_append (get?_lt_length hget)]
      exact hget

theorem vreach_desc (heap : List Node) :
    ∀ (v : JsValue) (j : Nat), VReach heap v j →
      ∀ (n : Nat), cleanN heap n v → cleanN heap n (.ref j) := by
  intro v j hr
  induction hr with
  | here id => intro n h; exact h
  | step id nd c j hget hc hr2 ih =>
    intro n h
    cases n with
    | zero => exact absurd h (by simp [cleanN, primClean])
    | succ m =>
      rcases h with h | ⟨id2, nd2, hv, hget2, ht2, hch⟩
      · exact absurd h (by simp [primClean])
      · cases hv
        rw [hget] at hget2
        cases hget2
        exact cleanN_mono heap m (m + 1) (by omega) _ (ih m (hch c hc))

theorem cleanN_no_loop (heap : List Node) :
    ∀ (n : Nat) (id : Nat), cleanN heap n (.ref id) →
      ∀ (nd : Node) (c : JsValue), heap.get? id = some nd →
        c ∈ nodeChildVals nd → ¬ VReach heap c id := by
  intro n
  induction n using Nat.strong_induction_on with
  | _ n ih =>
    intro id hclean nd c hget hc hr
    cases n with
    | zero => exact absurd hclean (by simp [cleanN, primClean])
    | succ m =>
      rcases hclean with h | ⟨id2, nd2, hv, hget2, ht2, hch⟩
      · exact absurd h (by simp [primClean])
      · cases hv
        rw [hget] at hget2
        cases hget2
        have hcm : cleanN heap m c := hch c hc
        have hcref : cleanN heap m (.ref id) := vreach_desc heap c id hr m hcm
        exact ih m (by omega) id hcref nd c hget hc hr

theorem sjoChildren_id (f : JsValue → String → List Node → SJRes) :
    ∀ (children : List (String × JsValue)) (alloc : List Node),
      (∀ p ∈ children, ∀ al, f p.2 p.1 al = .out p.2 al) →
      sjoChildren f children alloc = .out (children.map Prod.snd) false alloc := by
  intro children
  induction children with
  | nil => intro alloc _; rfl
  | cons p rest ih =>
    intro alloc hpt
    obtain ⟨k, v⟩ := p
    rw [sjoChildren]
    simp only [hpt (k, v) (List.mem_cons_self _ _) alloc,
      ih alloc (fun q hq al => hpt q (List.mem_cons_of_mem _ hq) al)]
    simp

theorem sjoChildren_ext (f : JsValue → String → List Node → SJRes)
    (hf : ∀ v k al out a2, f v k al = .out out a2 → ∃ na, a2 = al ++ na) :
    ∀ (children : List (String × JsValue)) (alloc : List Node)
      (vs : List JsValue) (ch : Bool) (a2 : List Node),
      sjoChildren f children alloc = .out vs ch a2 → ∃ na, a2 = alloc ++ na := by
  intro children
  induction children with
  | nil =>
    intro alloc vs ch a2 h
    rw [sjoChildren] at h
    cases h
    exact ⟨[], by simp⟩
  | cons p rest ih =>
    intro alloc vs ch a2 h
    obtain ⟨k, v⟩ := p
    rw [sjoChildren] at h
    split at h
    · rename_i jv alloc1 hres
      split at h
      · rename_i vs2 ch2 a22 hres2
        cases h
        obtain ⟨na1, h1⟩ := hf v k alloc jv alloc1 hres
        obtain ⟨na2, h2⟩ := ih alloc1 _ _ _ hres2
        exact ⟨na1 ++ na2, by rw [h2, h1, List.append_assoc]⟩
      · cases h
      · cases h
    · cases h
    · cases h

theorem safeJsonObjectF_ext :
    ∀ (fuel : Nat) (heap : List Node) (v : JsValue) (k : String)
      (stack : List Nat) (alloc : List Node) (out : JsValue) (alloc2 : List Node),
      safeJsonObjectF fuel heap v k stack alloc = .out out alloc2 →
      ∃ na, alloc2 = alloc ++ na := by
  intro fuel
  induction fuel with
  | zero =>
    intro heap v k stack alloc out alloc2 h
    rw [safeJsonObjectF] at h
    cases h
  | succ fuel ih =>
    intro heap v k stack alloc out alloc2 h
    cases v with
    | undef =>
      simp [safeJsonObjectF] at h
      exact ⟨[], by simp [h]⟩
    | jsNull =>
      simp [safeJsonObjectF] at h
      exact ⟨[], by simp [h]⟩
    | boolV b =>
      simp [safeJsonObjectF] at h
      exact ⟨[], by simp [h]⟩
    | numV n =>
      simp [safeJsonObjectF] at h
      exact ⟨[], by simp [h]⟩
    | strV s =>
      simp [safeJsonObjectF] at h
      exact ⟨[], by simp [h]⟩
    | bigintV i =>
      simp [safeJsonObjectF] at h
      exact ⟨[], by simp [h]⟩
    | funcV fid =>
      simp [safeJsonObjectF] at h
      exact ⟨[], by simp [h]⟩
    | ref id0 =>
      rw [safeJsonObjectF] at h
      rw [if_neg (by simp :
        ¬(JsValue.ref id0 = JsValue.undef ∨ JsValue.ref id0 = JsValue.jsNull))] at h
      cases hg0 : heap.get? id0 with
      | none =>
        by_cases hin : id0 ∈ stack
        · simp only [hg0, hin, if_true] at h
          cases h
          exact ⟨[], by simp⟩
        · simp only [hg0, hin, if_false] at h
          cases h
          exact ⟨[], by simp⟩
      | some nd0 =>
        cases ht : nodeToJSON nd0 with
        | none =>
          by_cases hin : id0 ∈ stack
          · simp only [hg0, ht, Option.getD_none, hin, if_true] at h
            cases h
            exact ⟨[], by simp⟩
          · simp only [hg0, ht, Option.getD_none, hin, if_false] at h
            split at h
            · rename_i vs changed alloc1 hres
              obtain ⟨na, rfl⟩ := sjoChildren_ext _
                (fun v2 k2 al2 o2 a22 hh =>
                  ih heap v2 k2 (stack ++ [id0]) al2 o2 a22 hh)
                (nodeChildren nd0) alloc vs changed alloc1 hres
              by_cases hc : changed = true
              · rw [if_pos hc] at h
                cases h
                exact ⟨na ++ [nodeRebuild nd0 vs], by rw [List.append_assoc]⟩
              · rw [if_neg hc] at h
                cases h
                exact ⟨na, rfl⟩
            · cases h
            · cases h
        | some j =>
          cases j with
          | undef =>
            simp only [hg0, ht, Option.getD_some] at h
            cases h
            exact ⟨[], by simp⟩
          | jsNull =>
            by_cases hin : id0 ∈ stack
            · simp only [hg0, ht, Option.getD_some, hin, if_true] at h
              cases h
              exact ⟨[], by simp⟩
            · simp only [hg0, ht, Option.getD_some, hin, if_false] at h
              cases h
          | boolV b =>
            simp only [hg0, ht, Option.getD_some] at h
            cases h
            exact ⟨[], by simp⟩
          | numV n =>
            simp only [hg0, ht, Option.getD_some] at h
            cases h
            exact ⟨[], by simp⟩
          | strV s =>
            simp only [hg0, ht, Option.getD_some] at h
            cases h
            exact ⟨[], by simp⟩
          | bigintV i =>
            simp only [hg0, ht, Option.getD_some] at h
            cases h
            exact ⟨[], by simp⟩
          | funcV fid2 =>
            simp only [hg0, ht, Option.getD_some] at h
            cases h
            exact ⟨[], by simp⟩
          | ref id1 =>
            by_cases hin : id0 ∈ stack
            · simp only [hg0, ht, Option.getD_some, hin, if_true] at h
              cases h
              exact ⟨[], by simp⟩
            · cases hg1 : heap.get? id1 with
              | none =>
                simp only [hg0, ht, Option.getD_some, hin, if_false, hg1] at h
                cases h
                exact ⟨[], by simp⟩
              | some nd1 =>
                simp only [hg0, ht, Option.getD_some, hin, if_false, hg1] at h
                split at h
                · rename_i vs changed alloc1 hres
                  obtain ⟨na, rfl⟩ := sjoChildren_ext _
                    (fun v2 k2 al2 o2 a22 hh =>
                      ih heap v2 k2 (stack ++ [id0]) al2 o2 a22 hh)
                    (nodeChildren nd1) alloc vs changed alloc1 hres
                  by_cases hc : changed = true
                  · rw [if_pos hc] at h
                    cases h
                    exact ⟨na ++ [nodeRebuild nd1 vs], by rw [List.append_assoc]⟩
                  · rw [if_neg hc] at h
                    cases h
                    exact ⟨na, rfl⟩
                · cases h
                · cases h

/-- C4: `safeJsonObject` terminates for every value over every heap,
including cyclic object graphs (the fixed fuel bound is never exhausted);
an object already on the current recursion path is replaced by the literal
string `"[Circular]"` (for any `toJSON` shape that reaches the circular
check); a concrete cyclic object sanitizes with the marker embedded; and
the same object reached on two unrelated branches is not flagged — the
shared-subobject heap sanitizes to itself unchanged. -/
theorem safeJsonObject_terminates :
    (∀ (heap : List Node) (v : JsValue), safeJsonObject heap v ≠ .fuelOut) ∧
    (∀ (fuel : Nat) (heap : List Node) (id : Nat) (nd : Node) (k : String)
        (stack : List Nat) (alloc : List Node),
      id ∈ stack → heap.get? id = some nd →
      (nodeToJSON nd = none ∨ nodeToJSON nd = some .jsNull ∨
        ∃ j, nodeToJSON nd = some (.ref j)) →
      safeJsonObjectF (fuel + 1) heap (.ref id) k stack alloc =
        .out (.strV "[Circular]") alloc) ∧
    (safeJsonObject [Node.objN [("a", .ref 0)] none] (.ref 0) =
      .out (.ref 1) [Node.objN [("a", .strV "[Circular]")] none]) ∧
    (safeJsonObject
      [Node.objN [("x", .ref 1), ("y", .ref 1)] none, Node.objN [] none]
      (.ref 0) = .out (.ref 0) []) := by
  refine ⟨?_, ?_, by decide, by decide⟩
  · intro heap v
    apply safeJsonObjectF_ne_fuelOut
    have h : seenMeasure heap.length [] = heap.length := by
      simp [seenMeasure]
    rw [h]
    omega
  · intro fuel heap id nd k stack alloc hin hget ht
    rw [safeJsonObjectF]
    rw [if_neg (by simp :
      ¬(JsValue.ref id = JsValue.undef ∨ JsValue.ref id = JsValue.jsNull))]
    rcases ht with ht | ht | ⟨j, ht⟩
    · simp [hget, ht, hin, ← List.get?_eq_getElem?]
    · simp [hget, ht, hin, ← List.get?_eq_getElem?]
    · simp [hget, ht, hin, ← List.get?_eq_getElem?]

/-- Witness for C4's on-path clause at a concrete self-referential object. -/
theorem safeJsonObject_terminates_witness :
    safeJsonObjectF 1 [Node.objN [("a", .ref 0)] none] (.ref 0) "a" [0] [] =
      .out (.strV "[Circular]") [] := by
  exact safeJsonObject_terminates.2.1 0 [Node.objN [("a", .ref 0)] none] 0
    (Node.objN [("a", .ref 0)] none) "a" [0] []
    (by decide) (by decide) (Or.inl (by decide))

/-- C10: `safeJsonObject` never mutates its input: a run only appends
freshly allocated copy nodes after the input heap, every original heap id
still resolves to its original node afterwards, and the output value is
either the (post-`toJSON`) input value itself or a reference to a freshly
allocated copy (an id at or past the input heap's length) — never an input
container updated in place. -/
theorem safeJsonObject_no_mutation :
    (∀ (fuel : Nat) (heap : List Node) (v : JsValue) (k : String)
        (stack : List Nat) (alloc : List Node) (out : JsValue) (alloc2 : List Node),
      safeJsonObjectF fuel heap v k stack alloc = .out out alloc2 →
      ∃ na, alloc2 = alloc ++ na) ∧
    (∀ (heap : List Node) (v : JsValue) (out : JsValue) (alloc1 : List Node),
      safeJsonObject heap v = .out out alloc1 →
      ∀ id, id < heap.length → (heap ++ alloc1).get? id = heap.get? id) ∧
    (∀ (heap : List Node) (v : JsValue) (out : JsValue) (alloc1 : List Node),
      safeJsonObject heap v = .out out alloc1 →
      out = postOf heap v ∨ ∀ id, out = .ref id → heap.length ≤ id) := by
  refine ⟨safeJsonObjectF_ext, ?_, ?_⟩
  · intro heap v out alloc1 _ id hid
    exact List.get?_append hid
  · intro heap v out alloc1 h
    unfold safeJsonObject at h
    cases v with
    | undef =>
      simp [safeJsonObjectF] at h
      exact Or.inl (by rw [← h.1]; simp [postOf])
    | jsNull =>
      simp [safeJsonObjectF] at h
      exact Or.inl (by rw [← h.1]; simp [postOf])
    | boolV b =>
      simp [safeJsonObjectF] at h
      exact Or.inl (by rw [← h.1]; simp [postOf])
    | numV n =>
      simp [safeJsonObjectF] at h
      exact Or.inl (by rw [← h.1]; simp [postOf])
    | strV s =>
      simp [safeJsonObjectF] at h
      exact Or.inl (by rw [← h.1]; simp [postOf])
    | bigintV i =>
      simp [safeJsonObjectF] at h
      refine Or.inr fun id hh => ?_
      exact absurd hh (by rw [← h.1]; simp)
    | funcV fid =>
      simp [safeJsonObjectF] at h
      exact Or.inl (by rw [← h.1]; simp [postOf])
    | ref id0 =>
      rw [safeJsonObjectF] at h
      rw [if_neg (by simp :
        ¬(JsValue.ref id0 = JsValue.undef ∨ JsValue.ref id0 = JsValue.jsNull))] at h
      have hin : id0 ∉ ([] : List Nat) := List.not_mem_nil id0
      cases hg0 : heap.get? id0 with
      | none =>
        simp only [hg0, hin, if_false] at h
        cases h
        exact Or.inl (by simp only [postOf, hg0])
      | some nd0 =>
        cases ht : nodeToJSON nd0 with
        | none =>
          simp only [hg0, ht, Option.getD_none, hin, if_false] at h
          split at h
          · rename_i vs changed alloc1b hres
            by_cases hc : changed = true
            · rw [if_pos hc] at h
              cases h
              refine Or.inr fun id hh => ?_
              cases hh
              omega
            · rw [if_neg hc] at h
              cases h
              exact Or.inl (by simp only [postOf, hg0, ht, Option.getD_none])
          · cases h
          · cases h
        | some j =>
          cases j with
          | undef =>
            simp only [hg0, ht, Option.getD_some] at h
            cases h
            exact Or.inl (by simp only [postOf, hg0, ht, Option.getD_some])
          | jsNull =>
            simp only [hg0, ht, Option.getD_some, hin, if_false] at h
            cases h
          | boolV b =>
            simp only [hg0, ht, Option.getD_some] at h
            cases h
            exact Or.inl (by simp only [postOf, hg0, ht, Option.getD_some])
          | numV n =>
            simp only [hg0, ht, Option.getD_some] at h
            cases h
            exact Or.inl (by simp only [postOf, hg0, ht, Option.getD_some])
          | strV s =>
            simp only [hg0, ht, Option.getD_some] at h
            cases h
            exact Or.inl (by simp only [postOf, hg0, ht, Option.getD_some])
          | bigintV i =>
            simp only [hg0, ht, Option.getD_some] at h
            cases h
            refine Or.inr fun id hh => ?_
            cases hh
          | funcV fid2 =>
            simp only [hg0, ht, Option.getD_some] at h
            cases h
            exact Or.inl (by simp only [postOf, hg0, ht, Option.getD_some])
          | ref id1 =>
            cases hg1 : heap.get? id1 with
            | none =>
              simp only [hg0, ht, Option.getD_some, hin, if_false, hg1] at h
              cases h
              exact Or.inl (by simp only [postOf, hg0, ht, Option.getD_some])
            | some nd1 =>
              simp only [hg0, ht, Option.getD_some, hin, if_false, hg1] at h
              split at h
              · rename_i vs changed alloc1b hres
                by_cases hc : changed = true
                · rw [if_pos hc] at h
                  cases h
                  refine Or.inr fun id hh => ?_
                  cases hh
                  omega
                · rw [if_neg hc] at h
                  cases h
                  exact Or.inl (by simp only [postOf, hg0, ht, Option.getD_some])
              · cases h
              · cases h

/-- Witness for C10 at a concrete heap with a bigint child: the copy is
appended and the original node is untouched. -/
theorem safeJsonObject_no_mutation_witness :
    ([Node.objN [("b", .bigintV 1)] none] ++
        [Node.objN [("b", .strV "1n")] none]).get? 0 =
      [Node.objN [("b", .bigintV 1)] none].get? 0 := by
  exact safeJsonObject_no_mutation.2.1 [Node.objN [("b", .bigintV 1)] none]
    (.ref 0) (.ref 1) [Node.objN [("b", .strV "1n")] none] (by decide) 0 (by decide)

theorem valRefBound_mono {b b2 : Nat} (hb : b ≤ b2) :
    ∀ v : JsValue, valRefBound b v → valRefBound b2 v := by
  intro v h
  cases v <;> first
    | exact Nat.lt_of_lt_of_le h hb
    | trivial

theorem nodeClosed_mono {b b2 : Nat} (hb : b ≤ b2) {nd : Node}
    (h : NodeClosed b nd) : NodeClosed b2 nd :=
  fun c hc => valRefBound_mono hb c (h c hc)

theorem cleanN_of_prim (heap : List Node) (n : Nat) (v : JsValue)
    (h : primClean v) : cleanN heap n v := by
  cases n with
  | zero => exact h
  | succ m => exact Or.inl h

theorem nodeToJSON_rebuild (nd : Node) (vs : List JsValue)
    (h : nodeToJSON nd = none) : nodeToJSON (nodeRebuild nd vs) = none := by
  cases nd with
  | arrN elems t => rfl
  | objN props t => exact h

theorem map_snd_keyed : ∀ (l : List (Nat × JsValue)),
    (l.map (fun p => (toString p.1, p.2))).map Prod.snd = l.map Prod.snd := by
  intro l
  induction l with
  | nil => rfl
  | cons a as ih => simp only [List.map_cons, ih]

theorem map_snd_zipWith_pair :
    ∀ (props : List (String × JsValue)) (vs : List JsValue),
      vs.length = props.length →
      (List.zipWith (fun p v => (p.1, v)) props vs).map Prod.snd = vs := by
  intro props
  induction props with
  | nil =>
    intro vs h
    cases vs with
    | nil => rfl
    | cons a as => simp at h
  | cons p rest ih =>
    intro vs h
    cases vs with
    | nil => simp at h
    | cons a as =>
      simp only [List.zipWith_cons_cons, List.map_cons]
      rw [ih as (by simpa using h)]

theorem nodeChildVals_rebuild (nd : Node) (vs : List JsValue)
    (h : vs.length = (nodeChildren nd).length) :
    nodeChildVals (nodeRebuild nd vs) = vs := by
  cases nd with
  | arrN elems t =>
    show (vs.enum.map (fun p => (toString p.1, p.2))).map Prod.snd = vs
    rw [map_snd_keyed]
    exact List.enum_map_snd vs
  | objN props t =>
    show (List.zipWith (fun p v => (p.1, v)) props vs).map Prod.snd = vs
    exact map_snd_zipWith_pair props vs (by simpa [nodeChildren] using h)

theorem sjo_prim_id (heap : List Node) (v : JsValue) (hp : primClean v)
    (fuel : Nat) (k : String) (stack : List Nat) (alloc : List Node) :
    safeJsonObjectF (fuel + 1) heap v k stack alloc = .out v alloc := by
  cases v
  case bigintV i => exact absurd hp (by simp [primClean])
  case ref id => exact absurd hp (by simp [primClean])
  all_goals simp [safeJsonObjectF]

theorem cleanN_run_id (heap : List Node) :
    ∀ (n : Nat) (v : JsValue), cleanN heap n v →
      ∀ (fuel : Nat), n < fuel →
      ∀ (stack : List Nat), (∀ j, VReach heap v j → j ∉ stack) →
      ∀ (k : String) (alloc : List Node),
        safeJsonObjectF fuel heap v k stack alloc = .out v alloc := by
  intro n
  induction n with
  | zero =>
    intro v hcl fuel hf stack _ k alloc
    cases fuel with
    | zero => omega
    | succ f => exact sjo_prim_id heap v hcl f k stack alloc
  | succ n2 ih =>
    intro v hcl fuel hf stack hst k alloc
    cases fuel with
    | zero => omega
    | succ f =>
      rcases hcl with hp | ⟨id, nd, hv, hget, ht, hch⟩
      · exact sjo_prim_id heap v hp f k stack alloc
      · cases hv
        have hin : id ∉ stack := hst id (VReach.here id)
        rw [safeJsonObjectF]
        rw [if_neg (by simp :
          ¬(JsValue.ref id = JsValue.undef ∨ JsValue.ref id = JsValue.jsNull))]
        simp only [hget, ht, Option.getD_none, hin, if_false]
        have hrun : ∀ p ∈ nodeChildren nd, ∀ al,
            safeJsonObjectF f heap p.2 p.1 (stack ++ [id]) al = .out p.2 al := by
          intro p hp al
          have hcp : cleanN heap n2 p.2 :=
            hch p.2 (List.mem_map_of_mem Prod.snd hp)
          refine ih p.2 hcp f (by omega) (stack ++ [id]) ?_ p.1 al
          intro j hrj hjmem
          rcases List.mem_append.1 hjmem with hjs | hjid
          · exact hst j (VReach.step id nd p.2 j hget
              (List.mem_map_of_mem Prod.snd hp) hrj) hjs
          · have hjid2 : j = id := by simpa using hjid
            rw [hjid2] at hrj
            exact cleanN_no_loop heap (n2 + 1) id
              (Or.inr ⟨id, nd, rfl, hget, ht, hch⟩) nd p.2 hget
              (List.mem_map_of_mem Prod.snd hp) hrj
        rw [sjoChildren_id
          (fun c k2 al => safeJsonObjectF f heap c k2 (stack ++ [id]) al)
          (nodeChildren nd) alloc hrun]
        simp

theorem sjoC_clean (heap : List Node) (h : Nat)
    (f : JsValue → String → List Node → SJRes)
    (hext : ∀ v k al out a2, f v k al = .out out a2 → ∃ na, a2 = al ++ na)
    (hf : ∀ v k al out a2, allocOK heap.length al → valRefBound heap.length v →
      f v k al = .out out a2 →
      allocOK heap.length a2 ∧ cleanN (heap ++ a2) h out ∧
        valRefBound (heap.length + a2.length) out) :
    ∀ (children : List (String × JsValue)) (alloc : List Node)
      (vs : List JsValue) (changed : Bool) (a2 : List Node),
      allocOK heap.length alloc →
      (∀ p ∈ children, valRefBound heap.length p.2) →
      sjoChildren f children alloc = .out vs changed a2 →
      allocOK heap.length a2 ∧ vs.length = children.length ∧
        (∀ o ∈ vs, cleanN (heap ++ a2) h o ∧
          valRefBound (heap.length + a2.length) o) ∧
        (changed = false → vs = children.map Prod.snd) := by
  intro children
  induction children with
  | nil =>
    intro alloc vs changed a2 hal _ hrun
    rw [sjoChildren] at hrun
    cases hrun
    exact ⟨hal, rfl, by simp, fun _ => rfl⟩
  | cons p rest ih =>
    intro alloc vs changed a2 hal hch hrun
    obtain ⟨k, v⟩ := p
    rw [sjoChildren] at hrun
    split at hrun
    · rename_i jv alloc1 hres
      split at hrun
      · rename_i vs2 ch2 a22 hres2
        cases hrun
        have hv : valRefBound heap.length v := hch (k, v) (List.mem_cons_self _ _)
        obtain ⟨hal1, hcl1, hrb1⟩ := hf v k alloc jv alloc1 hal hv hres
        obtain ⟨hal2, hlen2, hcl2, hch2⟩ :=
          ih alloc1 vs2 ch2 _ hal1
            (fun q hq => hch q (List.mem_cons_of_mem _ hq)) hres2
        obtain ⟨na2, rfl⟩ := sjoChildren_ext f hext rest alloc1 vs2 ch2 _ hres2
        refine ⟨hal2, by simp [hlen2], ?_, ?_⟩
        · intro o ho
          rcases List.mem_cons.1 ho with rfl | ho2
          · constructor
            · have h2 := cleanN_append (heap ++ alloc1) na2 h o hcl1
              rw [List.append_assoc] at h2
              exact h2
            · refine valRefBound_mono ?_ o hrb1
              simp only [List.length_append]
              omega
          · exact hcl2 o ho2
        · intro hcf
          rw [Bool.or_eq_false_iff] at hcf
          have hv2 : v = jv := not_not.mp (of_decide_eq_false hcf.2)
          rw [List.map_cons]
          rw [hch2 hcf.1, ← hv2]
      · cases hrun
      · cases hrun
    · cases hrun
    · cases hrun

theorem sjo_clean (heap : List Node) (hHC : HeapClosed heap)
    (hHT : HeapNoToJSON heap) :
    ∀ (fuel : Nat) (v : JsValue) (k : String) (stack : List Nat)
      (alloc : List Node) (out : JsValue) (alloc2 : List Node),
      allocOK heap.length alloc → valRefBound heap.length v →
      safeJsonObjectF fuel heap v k stack alloc = .out out alloc2 →
      allocOK heap.length alloc2 ∧
        cleanN (heap ++ alloc2) (seenMeasure heap.length stack) out ∧
        valRefBound (heap.length + alloc2.length) out := by
  intro fuel
  induction fuel with
  | zero =>
    intro v k stack alloc out alloc2 _ _ hrun
    rw [safeJsonObjectF] at hrun
    cases hrun
  | succ f ih =>
    intro v k stack alloc out alloc2 hal hv hrun
    cases v
    case ref id =>
      rw [safeJsonObjectF] at hrun
      rw [if_neg (by simp :
        ¬(JsValue.ref id = JsValue.undef ∨ JsValue.ref id = JsValue.jsNull))] at hrun
      have hid : id < heap.length := hv
      obtain ⟨nd, hget⟩ : ∃ nd, heap.get? id = some nd := by
        cases hx : heap.get? id with
        | some nd => exact ⟨nd, rfl⟩
        | none => rw [List.get?_eq_none] at hx; omega
      have hnd : nd ∈ heap := List.get?_mem hget
      have ht : nodeToJSON nd = none := hHT nd hnd
      by_cases hin : id ∈ stack
      · simp only [hget, ht, Option.getD_none, hin, if_true] at hrun
        cases hrun
        exact ⟨hal, cleanN_of_prim _ _ _ (by trivial), by trivial⟩
      · simp only [hget, ht, Option.getD_none, hin, if_false] at hrun
        split at hrun
        · rename_i vs changed alloc1 hres
          obtain ⟨hal1, hlen, hcls, hchf⟩ :=
            sjoC_clean heap (seenMeasure heap.length (stack ++ [id]))
              (fun c k2 al => safeJsonObjectF f heap c k2 (stack ++ [id]) al)
              (fun v2 k2 al o a2 hh =>
                safeJsonObjectF_ext f heap v2 k2 (stack ++ [id]) al o a2 hh)
              (fun v2 k2 al o a2 halx hvx hh =>
                ih v2 k2 (stack ++ [id]) al o a2 halx hvx hh)
              (nodeChildren nd) alloc vs changed alloc1 hal
              (fun p hp => hHC nd hnd p.2 (List.mem_map_of_mem Prod.snd hp))
              hres
          have hlt : seenMeasure heap.length (stack ++ [id]) <
              seenMeasure heap.length stack := seenMeasure_snoc_lt hid hin
          by_cases hc : changed = true
          · rw [if_pos hc] at hrun
            cases hrun
            have hreb : nodeChildVals (nodeRebuild nd vs) = vs :=
              nodeChildVals_rebuild nd vs hlen
            have htr : nodeToJSON (nodeRebuild nd vs) = none :=
              nodeToJSON_rebuild nd vs ht
            refine ⟨?_, ?_, ?_⟩
            · intro nd2 hnd2
              rcases List.mem_append.1 hnd2 with hnd2 | hnd2
              · obtain ⟨htj, hncl⟩ := hal1 nd2 hnd2
                refine ⟨htj, nodeClosed_mono ?_ hncl⟩
                simp only [List.length_append]
                omega
              · have hnd3 : nd2 = nodeRebuild nd vs := by simpa using hnd2
                subst hnd3
                refine ⟨htr, ?_⟩
                intro c hc2
                rw [hreb] at hc2
                refine valRefBound_mono ?_ c (hcls c hc2).2
                simp only [List.length_append]
                omega
            · refine cleanN_mono _ (seenMeasure heap.length (stack ++ [id]) + 1)
                (seenMeasure heap.length stack) (by omega) _ ?_
              refine Or.inr ⟨heap.length + alloc1.length, nodeRebuild nd vs,
                rfl, ?_, htr, ?_⟩
              · rw [← List.append_assoc]
                have hlen2 : (heap ++ alloc1).length =
                    heap.length + alloc1.length := by simp
                rw [← hlen2]
                exact List.get?_concat_length _ _
              · intro c hc2
                rw [hreb] at hc2
                have h2 := cleanN_append (heap ++ alloc1) [nodeRebuild nd vs] _
                  c (hcls c hc2).1
                rw [List.append_assoc] at h2
                exact h2
            · show heap.length + alloc1.length <
                heap.length + (alloc1 ++ [nodeRebuild nd vs]).length
              simp only [List.length_append, List.length_cons, List.length_nil]
              omega
          · rw [if_neg hc] at hrun
            cases hrun
            have hcf : changed = false := by
              cases changed with
              | false => rfl
              | true => exact absurd rfl hc
            have hvs : vs = (nodeChildren nd).map Prod.snd := hchf hcf
            refine ⟨hal1, ?_, ?_⟩
            · refine cleanN_mono _ (seenMeasure heap.length (stack ++ [id]) + 1)
                (seenMeasure heap.length stack) (by omega) _ ?_
              refine Or.inr ⟨id, nd, rfl, ?_, ht, ?_⟩
              · rw [List.get?_append hid]
                exact hget
              · intro c hc2
                have hc3 : c ∈ vs := by rw [hvs]; exact hc2
                exact (hcls c hc3).1
            · show id < heap.length + alloc2.length
              omega
        · cases hrun
        · cases hrun
    all_goals {
      simp [safeJsonObjectF] at hrun
      obtain ⟨h1, h2⟩ := hrun
      subst h1
      subst h2
      exact ⟨hal, cleanN_of_prim _ _ _ (by trivial), by trivial⟩ }

/-- C8: `safeJsonObject` is idempotent — in the amended form: on object
graphs none of whose objects expose a `toJSON` method (closed heap, valid
input reference), re-sanitizing the output of a sanitization run changes
nothing and allocates nothing (the same reference is returned, by
copy-on-write). The unrestricted claim is refuted by
`safeJsonObject_c8_counterexample`: `toJSON` is invoked only on the value
the call starts at, so a `toJSON` result that itself carries `toJSON` is
returned un-invoked and a second run invokes it. -/
theorem safeJsonObject_idempotent (heap : List Node) (v : JsValue)
    (hHC : HeapClosed heap) (hHT : HeapNoToJSON heap)
    (hv : valRefBound heap.length v)
    (out : JsValue) (alloc1 : List Node)
    (h : safeJsonObject heap v = .out out alloc1) :
    safeJsonObject (heap ++ alloc1) out = .out out [] := by
  obtain ⟨hal1, hcl, hrb⟩ := sjo_clean heap hHC hHT (heap.length + 1) v "" [] []
    out alloc1 (fun nd hnd => absurd hnd (List.not_mem_nil nd)) hv h
  have hm0 : seenMeasure heap.length [] = heap.length := by simp [seenMeasure]
  rw [hm0] at hcl
  unfold safeJsonObject
  exact cleanN_run_id (heap ++ alloc1) heap.length out hcl
    ((heap ++ alloc1).length + 1)
    (by simp only [List.length_append]; omega) []
    (fun j _ => List.not_mem_nil j) "" []

/-- C8 counterexample to the unrestricted idempotence claim: in `c8Heap`
object 0's `toJSON` returns object 1, whose own `toJSON` returns `"w"`.
The first sanitization of object 0 returns object 1 with its `toJSON`
un-invoked (the source calls `toJSON` only on the value the call was made
on), so sanitizing the result again yields `"w"` instead of returning it
unchanged. -/
theorem safeJsonObject_c8_counterexample :
    safeJsonObject c8Heap (.ref 0) = .out (.ref 1) [] ∧
    safeJsonObject (c8Heap ++ []) (.ref 1) = .out (.strV "w") [] ∧
    (JsValue.strV "w") ≠ (JsValue.ref 1) := by
  decide

/-- Witness for C8's amended idempotence at a concrete heap: sanitizing the
copy produced for an object with a bigint child returns it unchanged. -/
theorem safeJsonObject_idempotent_witness :
    safeJsonObject ([Node.objN [("b", .bigintV 1)] none] ++
        [Node.objN [("b", .strV "1n")] none]) (.ref 1) =
      .out (.ref 1) [] := by
  exact safeJsonObject_idempotent [Node.objN [("b", .bigintV 1)] none] (.ref 0)
    (by
      intro nd hnd
      rw [List.mem_singleton] at hnd
      subst hnd
      intro c hc
      simp only [nodeChildVals, nodeChildren, List.map_cons, List.map_nil] at hc
      rw [List.mem_singleton] at hc
      subst hc
      trivial)
    (by
      intro nd hnd
      rw [List.mem_singleton] at hnd
      subst hnd
      rfl)
    (by show (0 : Nat) < 1; omega)
    (.ref 1) [Node.objN [("b", .strV "1n")] none]
    (by decide)
